import Mathlib

/-!
Shallow embedding of the deterministic evidence analyzer in
`src/aws-deploy/lambdas/deterministic/app.py`, together with theorems
settling the frozen claims about it.

Conventions of the embedding:
* Python strings are Lean `String`s; regex patterns of the source are
  modelled by explicit scanners over `List Char` (ASCII model of the
  character classes: `\w` = alphanumeric or underscore, `\s` = space,
  tab, CR, LF, `\d` = ASCII digits).
* S3 access is out of scope (an external collaborator): functions that
  fetch artifacts take the fetched text, `Option String` for fallible
  fetches, or the object listing as an explicit argument.
* Python `dict`s are association lists kept in insertion order.
-/

namespace DetApp

/-- Word characters for the `\b` boundary of the source's regexes
(ASCII model of Python `re`'s `\w`). -/
def isWordChar (c : Char) : Bool := c.isAlphanum || c == '_'

/-- `\b` holds before the match when the preceding character (if any)
is not a word character. -/
def boundaryBefore : Option Char → Bool
  | none => true
  | some c => !(isWordChar c)

/-- `\b` holds after the match when the following character (if any)
is not a word character. -/
def boundaryAt : List Char → Bool
  | [] => true
  | c :: _ => !(isWordChar c)

/-- Match a literal pattern (given lower-case) case-insensitively at the
start of the input; return the remainder on success. -/
def matchCI : List Char → List Char → Option (List Char)
  | [], rest => some rest
  | _ :: _, [] => none
  | p :: ps, c :: cs => if c.toLower == p then matchCI ps cs else none

/-- `\s+`: at least one whitespace character, consumed greedily. -/
def matchWs1 : List Char → Option (List Char)
  | [] => none
  | c :: cs =>
    if c.isWhitespace then some (cs.dropWhile Char.isWhitespace) else none

/-- Numeric value of a digit string (the source's `int(...)` on a
`\d+` capture, which cannot fail on a digit string). -/
def digitsToNat (ds : List Char) : Nat :=
  ds.foldl (fun a c => a * 10 + (c.toNat - 48)) 0

/-- `(\d+)`: at least one digit, consumed greedily; returns the digits
captured and the remainder. -/
def matchDigits1 : List Char → Option (List Char × List Char)
  | [] => none
  | c :: cs =>
    if c.isDigit then
      some (c :: cs.takeWhile Char.isDigit, cs.dropWhile Char.isDigit)
    else none

/-- Attempt of `DP_SUCCESS_RE` = `\bsuccessfully completed\b` at one
position (`prev` is the character before the position). -/
def trySuccessAt (prev : Option Char) (cs : List Char) : Option Unit :=
  if boundaryBefore prev then
    (matchCI "successfully completed".toList cs).bind fun rest =>
      if boundaryAt rest then some () else none
  else none

/-- Attempt of `DP_COMPLETED_WITH_ERRORS_RE` =
`\bcompleted with\s+(\d+)\s+error` at one position; returns the value of
the captured group. -/
def tryCWErrAt (prev : Option Char) (cs : List Char) : Option Nat :=
  if boundaryBefore prev then
    (matchCI "completed with".toList cs).bind fun r1 =>
      (matchWs1 r1).bind fun r2 =>
        (matchDigits1 r2).bind fun dsr =>
          (matchWs1 dsr.2).bind fun r4 =>
            (matchCI "error".toList r4).map fun _ => digitsToNat dsr.1
  else none

/-- Attempt of `DP_COMPLETED_WITH_ERRORS_RE2` =
`\bcompleted with\s+error` at one position. -/
def tryCWErr2At (prev : Option Char) (cs : List Char) : Option Unit :=
  if boundaryBefore prev then
    (matchCI "completed with".toList cs).bind fun r1 =>
      (matchWs1 r1).bind fun r2 =>
        (matchCI "error".toList r2).map fun _ => ()
  else none

/-- Attempt of `DP_COMPLETED_RE` = `\bcompleted\b` at one position. -/
def tryCompletedAt (prev : Option Char) (cs : List Char) : Option Unit :=
  if boundaryBefore prev then
    (matchCI "completed".toList cs).bind fun rest =>
      if boundaryAt rest then some () else none
  else none

/-- `re.search`: try the pattern at every position, left to right;
`prev` is the character preceding the current position. -/
def searchFrom (f : Option Char → List Char → Option α) :
    Option Char → List Char → Option α
  | prev, [] => f prev []
  | prev, c :: cs =>
    match f prev (c :: cs) with
    | some a => some a
    | none => searchFrom f (some c) cs

def dpSuccessSearch (t : String) : Bool :=
  (searchFrom trySuccessAt none t.toList).isSome

def dpCWErrSearch (t : String) : Option Nat :=
  searchFrom tryCWErrAt none t.toList

def dpCWErr2Search (t : String) : Bool :=
  (searchFrom tryCWErr2At none t.toList).isSome

def dpCompletedSearch (t : String) : Bool :=
  (searchFrom tryCompletedAt none t.toList).isSome

/-- `_dp_completion_state_and_errors`: the four completion patterns in
strict priority order.  (The source wraps `int(m.group(1))` in a
`try/except` whose fallback is unreachable for a `\d+` capture.) -/
def dpCompletionStateAndErrors (text : String) : String × Option Nat :=
  if dpSuccessSearch text then ("SUCCESS", some 0)
  else
    match dpCWErrSearch text with
    | some n => ("COMPLETED_WITH_ERRORS", some n)
    | none =>
      if dpCWErr2Search text then ("COMPLETED_WITH_ERRORS", none)
      else if dpCompletedSearch text then ("COMPLETED", none)
      else ("NONE", none)

/-- A line-break character for Python `str.splitlines`. -/
def isLineBreak (c : Char) : Bool :=
  c == '\n' || c == '\x0d' || c == '\x0b' || c == '\x0c' ||
  c == '\x1c' || c == '\x1d' || c == '\x1e' || c == '\x85' ||
  c == '\u2028' || c == '\u2029'

/-- Python `str.splitlines` over characters: `\r\n` counts as one break,
a trailing break produces no empty final line. -/
def splitlinesAux : List Char → List Char → List (List Char)
  | acc, [] => if acc.isEmpty then [] else [acc.reverse]
  | acc, '\x0d' :: '\n' :: cs => acc.reverse :: splitlinesAux [] cs
  | acc, c :: cs =>
    if isLineBreak c then acc.reverse :: splitlinesAux [] cs
    else splitlinesAux (c :: acc) cs

def splitlines (t : String) : List String :=
  (splitlinesAux [] t.toList).map (fun l => (⟨l⟩ : String))

/-- `INTEGER_LINE_RE` = `^\s*(\d{1,12})\s*$` applied to one line via
`re.match`: optional whitespace, one to twelve digits, optional
whitespace, end of line; returns the captured integer. -/
def intLineMatch (ln : String) : Option Nat :=
  if 1 ≤ ((ln.toList.dropWhile Char.isWhitespace).takeWhile
        Char.isDigit).length &&
      ((ln.toList.dropWhile Char.isWhitespace).takeWhile
        Char.isDigit).length ≤ 12 &&
      ((ln.toList.dropWhile Char.isWhitespace).dropWhile
        Char.isDigit).all Char.isWhitespace then
    some (digitsToNat ((ln.toList.dropWhile Char.isWhitespace).takeWhile
      Char.isDigit))
  else none

/-- `_parse_orders_count_proof`: first line matching `INTEGER_LINE_RE`;
empty text (the absent-artifact case) or no matching line ⇒ `none`. -/
def parseOrdersCountProof (text : String) : Option Nat :=
  if text = "" then none
  else (splitlines text).findSome? intLineMatch

/-- One row of the invalid-object proof table. -/
structure InvObject where
  owner : String
  object_name : String
  object_type : String
  status : String
deriving DecidableEq

/-- Python `str.strip`. -/
def stripStr (s : String) : String :=
  ⟨((s.toList.dropWhile Char.isWhitespace).reverse.dropWhile
      Char.isWhitespace).reverse⟩

/-- Scanner for `re.split(r"\s{2,}", s)`: `tok` is the reversed current
field, `ws` the reversed run of pending whitespace.  A whitespace run of
length at least two is a field separator; a single whitespace character
stays inside the field. -/
def splitWs2Go : List Char → List Char → List Char → List (List Char)
  | tok, ws, [] =>
    if 2 ≤ ws.length then [tok.reverse, []] else [(ws ++ tok).reverse]
  | tok, ws, c :: cs =>
    if c.isWhitespace then splitWs2Go tok (c :: ws) cs
    else if 2 ≤ ws.length then tok.reverse :: splitWs2Go [c] [] cs
    else splitWs2Go (c :: (ws ++ tok)) [] cs

/-- `re.split(r"\s{2,}", s)`. -/
def splitWs2 (s : String) : List String :=
  (splitWs2Go [] [] s.toList).map (fun l => (⟨l⟩ : String))

/-- Upper-case image of a string (ASCII model of Python `str.upper`). -/
def upperStr (s : String) : String := ⟨s.toList.map Char.toUpper⟩

/-- `_parse_invalid_object_proof` applied to one stripped, non-empty
line: header/separator lines contribute nothing, a data row with at
least four fields whose fourth field is `INVALID` (case-insensitive)
contributes one counted object. -/
def invalidProofLineStep (acc : Nat × List InvObject) (lnChars : List Char) :
    Nat × List InvObject :=
  let s := stripStr (⟨lnChars⟩ : String)
  if s = "" then acc
  else if (s.toList.take 5).map Char.toUpper == "OWNER".toList then acc
  else if s.toList.all (fun c => c == '-' || c == ' ') then acc
  else
    match splitWs2 s with
    | owner :: objName :: objType :: status :: _ =>
      if upperStr status = "INVALID" then
        (acc.1 + 1, acc.2 ++ [⟨owner, objName, objType, status⟩])
      else acc
    | _ => acc

/-- `_parse_invalid_object_proof`: empty text ⇒ count `none` (no
evidence); otherwise count and collect the `INVALID` data rows. -/
def parseInvalidObjectProof (text : String) : Option Nat × List InvObject :=
  if text = "" then (none, [])
  else
    let r := (splitlinesAux [] text.toList).foldl invalidProofLineStep (0, [])
    (some r.1, r.2)

/-- `ValidationResult`: output of `_parse_validation`. -/
structure ValidationResult where
  status : String
  invalid_objects_count : Option Nat
  invalid_objects_sample : List InvObject
  orders_count : Option Nat
  evidence_invalid_object_proof : Bool
  evidence_orders_count_proof : Bool
deriving DecidableEq

/-- `_parse_validation`, with the two fetched proof texts supplied as
arguments (`none` models the absent-artifact fetch result). -/
def parseValidation (invalid_txt orders_txt : Option String) :
    ValidationResult :=
  let invalid_parsed := parseInvalidObjectProof (invalid_txt.getD "")
  let orders_count := parseOrdersCountProof (orders_txt.getD "")
  let invalid_count := invalid_parsed.1
  let status :=
    match invalid_count with
    | none => "UNKNOWN"
    | some n =>
      if n > 0 then "WARN"
      else if orders_count.isSome then "PASS" else "WARN"
  { status := status
    invalid_objects_count := invalid_count
    invalid_objects_sample := invalid_parsed.2.take 20
    orders_count := orders_count
    evidence_invalid_object_proof := invalid_txt.isSome
    evidence_orders_count_proof := orders_txt.isSome }

/-- Severity taxonomy: `FATAL_ORA`. -/
def FATAL_ORA : List String := ["ORA-39000", "ORA-31640", "ORA-27037"]

/-- Severity taxonomy: `WARN_ORA`. -/
def WARN_ORA : List String :=
  ["ORA-31642", "ORA-39127", "ORA-44002", "ORA-06550", "ORA-39082"]

/-- Severity taxonomy: `INFO_ORA`. -/
def INFO_ORA : List String := ["ORA-06512"]

/-- `LogResult`: the analysis record of one log artifact.  The
error-code mapping is an association list in insertion order. -/
structure LogResult where
  key_rel : String
  found : Bool
  text : Option String
  ora_counts : List (String × Nat)
  dp_state : String
  dp_error_count : Option Nat
deriving DecidableEq

/-- The error-code mapping of the selected import log used by
`_classify_status` and `_risk_score`: empty unless the log was found. -/
def impOraCounts : Option LogResult → List (String × Nat)
  | some lr => if lr.found then lr.ora_counts else []
  | none => []

/-- Does a code mapping contain a fatal code? -/
def hasFatalCode (counts : List (String × Nat)) : Bool :=
  counts.any (fun p => FATAL_ORA.contains p.1)

/-- Is this optional log present, found and in the given completion
state?  (The source's `lr and lr.found and lr.dp_state == st`.) -/
def logIs (st : String) : Option LogResult → Bool
  | some lr => lr.found && lr.dp_state == st
  | none => false

/-- `_classify_status`: the short-circuit decision list. -/
def classifyStatus (expdp impdp : Option LogResult)
    (validation : ValidationResult) (impdp_count : Nat) :
    String × List String :=
  let reasons : List String :=
    if impdp_count > 1 then
      ["Multiple impdp attempts detected (count=" ++
        toString impdp_count ++ ")."]
    else []
  if hasFatalCode (impOraCounts impdp) then
    ("FAIL", reasons ++ ["Fatal ORA codes detected in impdp."])
  else
    let reasons := reasons ++
      (if validation.status = "WARN" then
        ["Post-validation indicates WARN conditions (invalid objects present)."]
      else [])
    if logIs "COMPLETED_WITH_ERRORS" impdp then
      ("WARN", reasons ++ ["impdp completed with errors."])
    else if logIs "COMPLETED_WITH_ERRORS" expdp then
      ("WARN", reasons ++ ["expdp completed with errors."])
    else if logIs "SUCCESS" impdp && logIs "SUCCESS" expdp &&
        validation.status == "PASS" then
      ("PASS", reasons)
    else
      ("WARN", reasons ++
        ["Evidence present but not definitive SUCCESS for all phases."])

/-- `RISK_WEIGHTS`: the fixed weight table. -/
def RISK_WEIGHTS (factor : String) : Nat :=
  if factor = "missing_required_log" then 15
  else if factor = "missing_impdp_log" then 25
  else if factor = "impdp_retry_present" then 10
  else if factor = "fatal_ora_present" then 50
  else if factor = "warn_ora_present" then 15
  else if factor = "dp_completion_marker_missing" then 10
  else if factor = "expdp_completed_with_errors" then 10
  else if factor = "validation_invalid_objects_present" then 25
  else if factor = "validation_orders_count_missing" then 5
  else 0

/-- The heterogeneous `evidence` payload of a risk factor. -/
inductive Evidence where
  | str : String → Evidence
  | codes : List String → Evidence
  | count : Nat → Evidence
  | logErrors : String → Option Nat → Evidence
deriving DecidableEq

/-- One contributing risk factor record. -/
structure Factor where
  factor : String
  weight : Nat
  evidence : Evidence
deriving DecidableEq

/-- The source's `score += RISK_WEIGHTS[k]; factors.append({...})`
idiom. -/
def addFactor (st : Nat × List Factor) (name : String) (ev : Evidence) :
    Nat × List Factor :=
  (st.1 + RISK_WEIGHTS name, st.2 ++ [⟨name, RISK_WEIGHTS name, ev⟩])

/-- Per-log step of the missing-required-log loop in `_risk_score`. -/
def missingLogStep (st : Nat × List Factor) (lr : LogResult) :
    Nat × List Factor :=
  if lr.found then st
  else addFactor st "missing_required_log" (Evidence.str lr.key_rel)

/-- Stable insertion into an ascending list: the new element goes
before the first element it is `le`-below-or-equal to. -/
def insertLE {α : Type} (le : α → α → Bool) (a : α) : List α → List α
  | [] => [a]
  | b :: t => if le a b then a :: b :: t else b :: insertLE le a t

/-- Stable ascending sort (the semantics of Python `sort`/`sorted`):
structurally recursive, hence computable by the kernel. -/
def sortByLE {α : Type} (le : α → α → Bool) : List α → List α
  | [] => []
  | a :: t => insertLE le a (sortByLE le t)

/-- Lexicographically sorted (as Python `sorted`) sublist of the mapping
keys lying in the given severity class. -/
def severityCodes (counts : List (String × Nat)) (cls : List String) :
    List String :=
  sortByLE (fun a b => decide (a ≤ b))
    ((counts.map Prod.fst).filter (fun c => cls.contains c))

/-- Whether a fatal code is present in the selected import log, as
`_risk_score` computes it (`bool(fatal_codes)`). -/
def fatalPresentIn (impdp : Option LogResult) : Bool :=
  !(severityCodes (impOraCounts impdp) FATAL_ORA).isEmpty

/-- `_risk_score`, missing-import-log statement. -/
def riskStageMissingImpdp (impdp : Option LogResult)
    (st : Nat × List Factor) : Nat × List Factor :=
  if (match impdp with | some lr => lr.found | none => false) then st
  else addFactor st "missing_impdp_log"
    (Evidence.str "No impdp log selected/found under 03-migration/")

/-- `_risk_score`, multiple-attempts statement. -/
def riskStageRetry (impdp_count : Nat) (st : Nat × List Factor) :
    Nat × List Factor :=
  if impdp_count > 1 then
    addFactor st "impdp_retry_present"
      (Evidence.str ("impdp_log_count=" ++ toString impdp_count))
  else st

/-- `_risk_score`, fatal/warn severity statement: fatal takes
precedence, the two factors are mutually exclusive. -/
def riskStageSeverity (impdp : Option LogResult) (st : Nat × List Factor) :
    Nat × List Factor :=
  if fatalPresentIn impdp then
    addFactor st "fatal_ora_present"
      (Evidence.codes (severityCodes (impOraCounts impdp) FATAL_ORA))
  else if !(severityCodes (impOraCounts impdp) WARN_ORA).isEmpty then
    addFactor st "warn_ora_present"
      (Evidence.codes (severityCodes (impOraCounts impdp) WARN_ORA))
  else st

/-- `_risk_score`, completion-marker statement (only when no fatal
code, avoiding double counting). -/
def riskStageMarker (impdp : Option LogResult) (st : Nat × List Factor) :
    Nat × List Factor :=
  if logIs "NONE" impdp && !fatalPresentIn impdp then
    addFactor st "dp_completion_marker_missing"
      (Evidence.str ((impdp.map LogResult.key_rel).getD ""))
  else st

/-- `_risk_score`, export-completed-with-errors statement. -/
def riskStageExpdp (expdp : Option LogResult) (st : Nat × List Factor) :
    Nat × List Factor :=
  if logIs "COMPLETED_WITH_ERRORS" expdp then
    addFactor st "expdp_completed_with_errors"
      (Evidence.logErrors ((expdp.map LogResult.key_rel).getD "")
        ((expdp.map LogResult.dp_error_count).getD none))
  else st

/-- `_risk_score`, invalid-objects statement. -/
def riskStageInvalid (validation : ValidationResult)
    (st : Nat × List Factor) : Nat × List Factor :=
  match validation.invalid_objects_count with
  | some n =>
    if n > 0 then
      addFactor st "validation_invalid_objects_present" (Evidence.count n)
    else st
  | none => st

/-- `_risk_score`, missing-row-count statement. -/
def riskStageOrders (validation : ValidationResult)
    (st : Nat × List Factor) : Nat × List Factor :=
  if validation.orders_count.isNone then
    addFactor st "validation_orders_count_missing"
      (Evidence.str "orders_count_proof missing or unparseable")
  else st

/-- `_risk_score`: deterministic additive model, score capped at 100;
one stage per statement of the source. -/
def riskScore (required_logs : List LogResult) (impdp : Option LogResult)
    (impdp_count : Nat) (expdp : Option LogResult)
    (validation : ValidationResult) : Nat × List Factor :=
  let st := required_logs.foldl missingLogStep (0, [])
  let st := riskStageMissingImpdp impdp st
  let st := riskStageRetry impdp_count st
  let st := riskStageSeverity impdp st
  let st := riskStageMarker impdp st
  let st := riskStageExpdp expdp st
  let st := riskStageInvalid validation st
  let st := riskStageOrders validation st
  (min 100 st.1, st.2)

/-- `_risk_level`. -/
def riskLevel (score : Nat) : String :=
  if score ≥ 70 then "HIGH"
  else if score ≥ 35 then "MEDIUM"
  else "LOW"

/-- The handler's inner `dp_status`: per-phase data-pump status for the
Summary. -/
def dp_status : Option LogResult → String
  | none => "MISSING"
  | some r =>
    if !r.found then "MISSING"
    else if hasFatalCode r.ora_counts then "FAIL"
    else if r.dp_state == "SUCCESS" then "PASS"
    else if r.dp_state == "COMPLETED_WITH_ERRORS" then "WARN"
    else "WARN"

/-- First occurrence of `retry` (case-insensitive) in a filename:
returns the remainder after the token (`IMPDP_RETRY_RE` = `retry(\d+)?`). -/
def retryAt? : List Char → Option (List Char)
  | [] => none
  | c :: cs =>
    if ((c :: cs).take 5).map Char.toLower == "retry".toList then
      some ((c :: cs).drop 5)
    else retryAt? cs

/-- `_impdp_retry_number`: no `retry` token ⇒ 0; token without digits ⇒ 1;
token with digits ⇒ their value. -/
def impdpRetryNumber (filename : String) : Nat :=
  match retryAt? filename.toList with
  | none => 0
  | some rest =>
    let ds := rest.takeWhile Char.isDigit
    if ds.isEmpty then 1 else digitsToNat ds

/-- One object of the S3 listing under the migration namespace (the
storage collaborator is out of scope; the listing is an input).
`last_modified` is the timestamp in a totally ordered encoding. -/
structure S3Obj where
  key : String
  last_modified : Nat
  size : Nat
deriving DecidableEq

/-- Python `key.split("/")[-1]`: the segment after the last slash. -/
def basename (key : String) : String :=
  ⟨((key.toList.reverse).takeWhile (fun c => !(c == '/'))).reverse⟩

/-- Python `str.startswith`. -/
def strStartsWith (s p : String) : Bool := p.toList.isPrefixOf s.toList

/-- Python `str.endswith`. -/
def strEndsWith (s p : String) : Bool :=
  p.toList.reverse.isPrefixOf s.toList.reverse

/-- The filename convention filter of `_pick_best_impdp_log` plus the
derived retry number. -/
def impdpCandidates (objs : List S3Obj) : List (S3Obj × Nat) :=
  (objs.filter (fun o =>
      strStartsWith (basename o.key) "impdp_" &&
      strEndsWith (basename o.key) ".log")).map
    (fun o => (o, impdpRetryNumber (basename o.key)))

/-- Ascending comparison on `(retry_number, last_modified)` used to sort
candidates. -/
def candLE (a b : S3Obj × Nat) : Bool :=
  a.2 < b.2 || (a.2 == b.2 && a.1.last_modified ≤ b.1.last_modified)

/-- Audit metadata row for one candidate. -/
structure CandMeta where
  key : String
  base_name : String
  retry_number : Nat
  last_modified : Nat
  size : Nat
deriving DecidableEq

/-- Python `max(rn for _, rn in candidates)` (0 on the empty list). -/
def maxRetry (cands : List (S3Obj × Nat)) : Nat :=
  (cands.map Prod.snd).foldl max 0

/-- The audit metadata rows built by `_pick_best_impdp_log` (the source
strips the run prefix from the key for display). -/
def candMetaOf (objs : List S3Obj) (runPfx : String) : List CandMeta :=
  (impdpCandidates objs).map (fun p =>
    (⟨p.1.key.replace runPfx "", basename p.1.key, p.2,
      p.1.last_modified, p.1.size⟩ : CandMeta))

/-- `_pick_best_impdp_log`: filter candidates by naming convention, sort
ascending by `(retry_number, last_modified)` (stably, as Python `sort`),
pick the last; returns (selected key, candidate count, audit metadata,
selection reason). -/
def pickBestImpdpLog (objs : List S3Obj) (runPfx : String) :
    Option String × Nat × List CandMeta × String :=
  if (impdpCandidates objs).isEmpty then
    (none, 0, candMetaOf objs runPfx, "no_candidates")
  else
    (some ((sortByLE candLE (impdpCandidates objs)).getLastD
        (⟨"", 0, 0⟩, 0)).1.key,
      (impdpCandidates objs).length, candMetaOf objs runPfx,
      if maxRetry (impdpCandidates objs) > 0 then
        "filename_retry_number_then_lastmodified"
      else "lastmodified")

/-- Python substring containment (`needle in hay`). -/
def containsSub (needle : List Char) : List Char → Bool
  | [] => needle.isPrefixOf []
  | c :: t => needle.isPrefixOf (c :: t) || containsSub needle t

/-- Index of the first line containing the (already upper-cased) code,
case-insensitively (`_extract_excerpts`'s inner scan). -/
def firstHitIdx (lines : List (List Char)) (codeU : List Char) :
    Option Nat :=
  match lines with
  | [] => none
  | ln :: rest =>
    if containsSub codeU (ln.map Char.toUpper) then some 0
    else (firstHitIdx rest codeU).map (· + 1)

/-- The symmetric context window of lines around a hit index, as the
source's `lines[max(0, i - ctx) : min(len(lines), i + ctx + 1)]`. -/
def windowChunk (lines : List (List Char)) (i ctx : Nat) : List String :=
  (((lines.drop (i - ctx)).take (min lines.length (i + ctx + 1) - (i - ctx))).map
    (fun l => (⟨l⟩ : String)))

/-- Python dict insertion: overwrite the value at an existing key in
place, else append. -/
def dictInsert : List (String × List String) → String → List String →
    List (String × List String)
  | [], k, v => [(k, v)]
  | (k0, v0) :: t, k, v =>
    if k0 == k then (k, v) :: t else (k0, v0) :: dictInsert t k v

/-- The truncation of a window chunk to the remaining budget
(`chunk[:remaining]` when over budget). -/
def truncChunk (chunk0 : List String) (remaining : Nat) : List String :=
  if chunk0.length > remaining then chunk0.take remaining else chunk0

/-- The per-code loop of `_extract_excerpts`: `used` is the number of
excerpt lines already accumulated against the global budget (the
source's `remaining <= 0` break is `maxTotal - used = 0` in `Nat`). -/
def extractExcerptsGo (lines : List (List Char)) (ctx maxTotal : Nat) :
    List String → List (String × List String) → Nat →
    List (String × List String)
  | [], exc, _ => exc
  | code :: rest, exc, used =>
    match firstHitIdx lines (upperStr code).toList with
    | none => extractExcerptsGo lines ctx maxTotal rest exc used
    | some i =>
      if maxTotal - used = 0 then exc
      else
        extractExcerptsGo lines ctx maxTotal rest
          (dictInsert exc (upperStr code)
            (truncChunk (windowChunk lines i ctx) (maxTotal - used)))
          (used + (truncChunk (windowChunk lines i ctx)
            (maxTotal - used)).length)

/-- `_extract_excerpts` (defaults in the source: `context_lines = 2`,
`max_total_lines = 20`). -/
def extractExcerpts (text : String) (codes : List String)
    (context_lines max_total_lines : Nat) :
    List (String × List String) :=
  if text = "" || codes.isEmpty then []
  else
    extractExcerptsGo (splitlinesAux [] text.toList) context_lines
      max_total_lines codes [] 0

/-- The character preceding the position reached after consuming `pre`,
starting from a position preceded by `prev`. -/
def prevOf (prev : Option Char) (pre : List Char) : Option Char :=
  match pre.getLast? with
  | some c => some c
  | none => prev

/-- `mid` spells the (lower-case) pattern case-insensitively. -/
def LowerEq (mid : List Char) (pat : String) : Prop :=
  mid.map Char.toLower = pat.toList

/-- Declarative reading of `\bsuccessfully completed\b` matching
somewhere in the text. -/
def ContainsSuccessPhrase (t : String) : Prop :=
  ∃ pre mid post, t.toList = pre ++ mid ++ post ∧
    LowerEq mid "successfully completed" ∧
    boundaryBefore pre.getLast? = true ∧ boundaryAt post = true

/-- Declarative reading of `\bcompleted with\s+(\d+)\s+error` matching
somewhere in the text with captured value `n`. -/
def ContainsCWErrPhrase (t : String) (n : Nat) : Prop :=
  ∃ pre lit1 w1 ds w2 lit2 post,
    t.toList = pre ++ lit1 ++ w1 ++ ds ++ w2 ++ lit2 ++ post ∧
    LowerEq lit1 "completed with" ∧
    w1 ≠ [] ∧ (∀ c ∈ w1, c.isWhitespace = true) ∧
    ds ≠ [] ∧ (∀ c ∈ ds, c.isDigit = true) ∧
    w2 ≠ [] ∧ (∀ c ∈ w2, c.isWhitespace = true) ∧
    LowerEq lit2 "error" ∧
    boundaryBefore pre.getLast? = true ∧ n = digitsToNat ds

/-- Declarative reading of `\bcompleted with\s+error` matching somewhere
in the text. -/
def ContainsCWErr2Phrase (t : String) : Prop :=
  ∃ pre lit1 w1 lit2 post,
    t.toList = pre ++ lit1 ++ w1 ++ lit2 ++ post ∧
    LowerEq lit1 "completed with" ∧
    w1 ≠ [] ∧ (∀ c ∈ w1, c.isWhitespace = true) ∧
    LowerEq lit2 "error" ∧ boundaryBefore pre.getLast? = true

/-- Declarative reading of `\bcompleted\b` matching somewhere in the
text. -/
def ContainsCompletedPhrase (t : String) : Prop :=
  ∃ pre mid post, t.toList = pre ++ mid ++ post ∧
    LowerEq mid "completed" ∧
    boundaryBefore pre.getLast? = true ∧ boundaryAt post = true

/-- Sum of the weights of a factor list. -/
def sumW (l : List Factor) : Nat := (l.map Factor.weight).sum

/-- Total number of excerpt lines across all chunks. -/
def sumLens (m : List (String × List String)) : Nat :=
  (m.map (fun p => p.2.length)).sum

/-- Total number of window lines the excerpt loop would consume for a
code list (per occurrence; codes without a hit consume nothing). -/
def windowNeed (lines : List (List Char)) (ctx : Nat) :
    List String → Nat
  | [] => 0
  | c :: rest =>
    (match firstHitIdx lines (upperStr c).toList with
     | some i => (windowChunk lines i ctx).length
     | none => 0) + windowNeed lines ctx rest

/-- Sample inputs used by witnesses. -/
def impdpFatalSample : LogResult :=
  ⟨"03-migration/impdp_legacy_23c.log", true, none,
    [("ORA-39000", 2), ("ORA-06512", 1)], "SUCCESS", some 0⟩

def expdpSuccessSample : LogResult :=
  ⟨"03-migration/expdp_legacy_18c.log", true, none, [], "SUCCESS", some 0⟩

def validationPassSample : ValidationResult :=
  ⟨"PASS", some 0, [], some 50000, true, true⟩

/-! ## Theorems -/

/-- C1: if the selected import log was found and its error-code mapping
contains a fatal code, the classifier returns FAIL regardless of the
export log, the validation result and the attempt count (and hence
regardless of the risk score, which the classifier never consults). -/
theorem classifyStatus_fatal_forces_fail
    (expdp : Option LogResult) (lr : LogResult)
    (validation : ValidationResult) (impdp_count : Nat)
    (hfound : lr.found = true)
    (hfatal : hasFatalCode lr.ora_counts = true) :
    (classifyStatus expdp (some lr) validation impdp_count).1 = "FAIL" := by
  simp [classifyStatus, impOraCounts, hfound, hfatal]

/-- Witness for C1 at a concrete fatal import log. -/
theorem classifyStatus_fatal_forces_fail_witness :
    (impdpFatalSample.found = true ∧
      hasFatalCode impdpFatalSample.ora_counts = true) ∧
    (classifyStatus (some expdpSuccessSample) (some impdpFatalSample)
        validationPassSample 1).1 = "FAIL" :=
  ⟨⟨rfl, by decide⟩,
    classifyStatus_fatal_forces_fail (some expdpSuccessSample)
      impdpFatalSample validationPassSample 1 rfl (by decide)⟩

/-- C9: per-phase data-pump status: MISSING exactly for an absent or
unfound log; a found log with a fatal code is FAIL even when its
completion state is SUCCESS; PASS exactly for a found log with no fatal
code in state SUCCESS; any other found log is WARN. -/
theorem dp_status_cases (x : Option LogResult) :
    (dp_status x = "PASS" ↔ ∃ lr, x = some lr ∧ lr.found = true ∧
      hasFatalCode lr.ora_counts = false ∧ lr.dp_state = "SUCCESS") ∧
    (dp_status x = "MISSING" ↔
      (x = none ∨ ∃ lr, x = some lr ∧ lr.found = false)) ∧
    (∀ lr, x = some lr → lr.found = true →
      hasFatalCode lr.ora_counts = true → dp_status x = "FAIL") ∧
    (∀ lr, x = some lr → lr.found = true →
      hasFatalCode lr.ora_counts = false → lr.dp_state ≠ "SUCCESS" →
      dp_status x = "WARN") := by
  rcases x with _ | lr
  · refine ⟨by simp [dp_status], by simp [dp_status], ?_, ?_⟩ <;>
      intro lr h <;> exact absurd h (by simp)
  · refine ⟨?_, ?_, ?_, ?_⟩
    · by_cases hf : lr.found
      · by_cases hfl : hasFatalCode lr.ora_counts
        · simp [dp_status, hf, hfl]
        · by_cases hs : lr.dp_state = "SUCCESS"
          · simp [dp_status, hf, hfl, hs]
          · by_cases hc : lr.dp_state = "COMPLETED_WITH_ERRORS" <;>
              simp [dp_status, hf, hfl, hs, hc]
      · simp [dp_status, hf]
    · by_cases hf : lr.found
      · by_cases hfl : hasFatalCode lr.ora_counts
        · simp [dp_status, hf, hfl]
        · by_cases hs : lr.dp_state = "SUCCESS"
          · simp [dp_status, hf, hfl, hs]
          · by_cases hc : lr.dp_state = "COMPLETED_WITH_ERRORS" <;>
              simp [dp_status, hf, hfl, hs, hc]
      · simp [dp_status, hf]
    · intro lr' h hf hfl
      obtain rfl : lr = lr' := by injection h
      simp [dp_status, hf, hfl]
    · intro lr' h hf hfl hs
      obtain rfl : lr = lr' := by injection h
      by_cases hc : lr.dp_state = "COMPLETED_WITH_ERRORS" <;>
        simp [dp_status, hf, hfl, hs, hc]

/-- C10: an invalid-object proof artifact that exists but is empty
yields count `none` and status UNKNOWN, while the evidence-presence
flag for the artifact remains true. -/
theorem parseValidation_empty_invalid_text (ot : Option String) :
    (parseValidation (some "") ot).status = "UNKNOWN" ∧
    (parseValidation (some "") ot).invalid_objects_count = none ∧
    (parseValidation (some "") ot).evidence_invalid_object_proof = true := by
  refine ⟨?_, ?_, ?_⟩ <;> simp [parseValidation, parseInvalidObjectProof]

/-- C2: validation status is UNKNOWN exactly when the invalid-object
count is `none`; WARN for a positive count regardless of the row count;
for a zero count it is PASS when the row-count value is present and WARN
when it is absent. -/
theorem parseValidation_status_cases (it ot : Option String) :
    ((parseValidation it ot).status = "UNKNOWN" ↔
      (parseValidation it ot).invalid_objects_count = none) ∧
    (∀ n, (parseValidation it ot).invalid_objects_count = some n →
      (0 < n → (parseValidation it ot).status = "WARN") ∧
      (n = 0 →
        ((parseValidation it ot).orders_count ≠ none →
          (parseValidation it ot).status = "PASS") ∧
        ((parseValidation it ot).orders_count = none →
          (parseValidation it ot).status = "WARN"))) := by
  rcases hc : (parseInvalidObjectProof (it.getD "")).1 with _ | n
  · constructor
    · simp [parseValidation, hc]
    · intro n hn
      simp [parseValidation, hc] at hn
  · rcases ho : parseOrdersCountProof (ot.getD "") with _ | m
    · rcases Nat.eq_zero_or_pos n with h0 | hpos
      · subst h0
        constructor
        · simp [parseValidation, hc, ho]
        · intro k hk
          simp [parseValidation, hc, ho] at hk ⊢
      · constructor
        · simp [parseValidation, hc, ho, hpos]
        · intro k hk
          simp [parseValidation, hc, ho, hpos] at hk ⊢
    · rcases Nat.eq_zero_or_pos n with h0 | hpos
      · subst h0
        constructor
        · simp [parseValidation, hc, ho]
        · intro k hk
          simp [parseValidation, hc, ho] at hk ⊢
          omega
      · constructor
        · simp [parseValidation, hc, ho, hpos]
        · intro k hk
          simp [parseValidation, hc, ho, hpos] at hk ⊢
          omega

/-- C6: the classifier returns PASS exactly when the selected import
log has no fatal code, both logs are present and found with completion
state SUCCESS, and the validation status is PASS; the result is always
one of FAIL, WARN, PASS; and whenever no earlier rule fires and the PASS
condition fails, the result is WARN with the generic non-definitive
reason appended last. -/
theorem classifyStatus_pass_iff_and_total (expdp impdp : Option LogResult)
    (validation : ValidationResult) (impdp_count : Nat) :
    ((classifyStatus expdp impdp validation impdp_count).1 = "PASS" ↔
      (hasFatalCode (impOraCounts impdp) = false ∧
        logIs "SUCCESS" impdp = true ∧ logIs "SUCCESS" expdp = true ∧
        validation.status = "PASS")) ∧
    ((classifyStatus expdp impdp validation impdp_count).1 = "FAIL" ∨
      (classifyStatus expdp impdp validation impdp_count).1 = "WARN" ∨
      (classifyStatus expdp impdp validation impdp_count).1 = "PASS") ∧
    (hasFatalCode (impOraCounts impdp) = false →
      logIs "COMPLETED_WITH_ERRORS" impdp = false →
      logIs "COMPLETED_WITH_ERRORS" expdp = false →
      ¬(logIs "SUCCESS" impdp = true ∧ logIs "SUCCESS" expdp = true ∧
          validation.status = "PASS") →
      (classifyStatus expdp impdp validation impdp_count).1 = "WARN" ∧
      (classifyStatus expdp impdp validation impdp_count).2.getLast? =
        some "Evidence present but not definitive SUCCESS for all phases.") := by
  by_cases hf : hasFatalCode (impOraCounts impdp) = true
  · refine ⟨?_, ?_, ?_⟩
    · simp [classifyStatus, hf]
    · simp [classifyStatus, hf]
    · intro hf' _ _ _
      rw [hf] at hf'
      exact absurd hf' (by simp)
  · have hf' : hasFatalCode (impOraCounts impdp) = false := by
      simpa using hf
    by_cases hic : logIs "COMPLETED_WITH_ERRORS" impdp = true
    · refine ⟨?_, ?_, ?_⟩
      · constructor
        · intro h
          simp [classifyStatus, hf', hic] at h
        · rintro ⟨-, hi, -, -⟩
          rcases impdp with _ | lr
          · simp [logIs] at hic
          · simp [logIs] at hic hi
            rw [hic.2] at hi
            exact absurd hi.2 (by simp)
      · simp [classifyStatus, hf', hic]
      · intro _ hic' _ _
        rw [hic] at hic'
        exact absurd hic' (by simp)
    · have hic' : logIs "COMPLETED_WITH_ERRORS" impdp = false := by
        simpa using hic
      by_cases hec : logIs "COMPLETED_WITH_ERRORS" expdp = true
      · refine ⟨?_, ?_, ?_⟩
        · constructor
          · intro h
            simp [classifyStatus, hf', hic', hec] at h
          · rintro ⟨-, -, he, -⟩
            rcases expdp with _ | lr
            · simp [logIs] at hec
            · simp [logIs] at hec he
              rw [hec.2] at he
              exact absurd he.2 (by simp)
        · simp [classifyStatus, hf', hic', hec]
        · intro _ _ hec' _
          rw [hec] at hec'
          exact absurd hec' (by simp)
      · have hec' : logIs "COMPLETED_WITH_ERRORS" expdp = false := by
          simpa using hec
        by_cases hp : logIs "SUCCESS" impdp = true ∧
            logIs "SUCCESS" expdp = true ∧ validation.status = "PASS"
        · refine ⟨?_, ?_, ?_⟩
          · simp [classifyStatus, hf', hic', hec', hp.1, hp.2.1, hp.2.2]
          · simp [classifyStatus, hf', hic', hec', hp.1, hp.2.1, hp.2.2]
          · intro _ _ _ hnp
            exact absurd ⟨hp.1, hp.2.1, hp.2.2⟩ hnp
        · have hcond : (logIs "SUCCESS" impdp && logIs "SUCCESS" expdp &&
              (validation.status == "PASS")) = false := by
            rcases Bool.eq_false_or_eq_true (logIs "SUCCESS" impdp) with h1 | h1
            · rcases Bool.eq_false_or_eq_true (logIs "SUCCESS" expdp)
                with h2 | h2
              · have h3 : validation.status ≠ "PASS" := by
                  intro h3
                  exact hp ⟨h1, h2, h3⟩
                simp [h1, h2, h3]
              · simp [h1, h2]
            · simp [h1]
          refine ⟨?_, ?_, ?_⟩
          · constructor
            · intro h
              simp [classifyStatus, hf', hic', hec', hcond] at h
            · rintro ⟨-, h1, h2, h3⟩
              exact absurd ⟨h1, h2, h3⟩ hp
          · simp [classifyStatus, hf', hic', hec', hcond]
          · intro _ _ _ _
            constructor
            · simp [classifyStatus, hf', hic', hec', hcond]
            · simp [classifyStatus, hf', hic', hec', hcond]

/-- C7 counterexample: a non-empty text whose single line consists
solely of digits, on which the count-only extractor nevertheless
returns `none` (the source's pattern accepts at most twelve digits). -/
theorem parseOrdersCountProof_thirteen_digits :
    ("9999999999999" : String) ≠ "" ∧
    ("9999999999999" : String).toList ≠ [] ∧
    (∀ c ∈ ("9999999999999" : String).toList, c.isDigit = true) ∧
    splitlines "9999999999999" = ["9999999999999"] ∧
    parseOrdersCountProof "9999999999999" = none := by
  refine ⟨by decide, by decide, by decide, by decide, by decide⟩

/-- Every character kept by `takeWhile` satisfies the predicate. -/
lemma mem_takeWhile_pred {p : Char → Bool} :
    ∀ (l : List Char), ∀ c ∈ l.takeWhile p, p c = true := by
  intro l
  induction l with
  | nil => intro c hc; simp at hc
  | cons a t ih =>
    intro c hc
    rw [List.takeWhile_cons] at hc
    by_cases ha : p a = true
    · rw [if_pos ha] at hc
      rcases List.mem_cons.1 hc with hc | hc
      · exact hc ▸ ha
      · exact ih c hc
    · rw [if_neg ha] at hc
      simp at hc

/-- The head surviving `dropWhile` fails the predicate. -/
lemma head?_dropWhile_not {p : Char → Bool} :
    ∀ (l : List Char) (c : Char), (l.dropWhile p).head? = some c →
      p c = false := by
  intro l
  induction l with
  | nil => intro c hc; simp at hc
  | cons a t ih =>
    intro c hc
    rw [List.dropWhile_cons] at hc
    by_cases ha : p a = true
    · rw [if_pos ha] at hc
      exact ih c hc
    · rw [if_neg ha] at hc
      simp at hc
      subst hc
      simpa using ha

/-- `takeWhile`/`dropWhile` on a split whose left part satisfies the
predicate and whose right part starts failing it. -/
lemma takeWhile_dropWhile_of_split {p : Char → Bool} :
    ∀ (w r : List Char), (∀ c ∈ w, p c = true) →
      (∀ c, r.head? = some c → p c = false) →
      (w ++ r).takeWhile p = w ∧ (w ++ r).dropWhile p = r := by
  intro w
  induction w with
  | nil =>
    intro r _ hr
    cases r with
    | nil => simp
    | cons c t =>
      have hc := hr c rfl
      simp [List.takeWhile_cons, List.dropWhile_cons, hc]
  | cons a w ih =>
    intro r hw hr
    have ha : p a = true := hw a (by simp)
    have h2 := ih r (fun c hc => hw c (by simp [hc])) hr
    simp only [List.cons_append, List.takeWhile_cons, List.dropWhile_cons,
      ha, if_true]
    exact ⟨by rw [h2.1], by rw [h2.2]⟩

/-- A digit is not whitespace. -/
lemma isDigit_not_ws {c : Char} (h : c.isDigit = true) :
    c.isWhitespace = false := by
  cases hw : c.isWhitespace
  · rfl
  · exfalso
    have hw' := hw
    simp [Char.isWhitespace] at hw'
    have hcases : c = ' ' ∨ c = '\t' ∨ c = '\x0d' ∨ c = '\n' := by tauto
    rcases hcases with h1 | h1 | h1 | h1 <;> subst h1 <;>
      exact absurd h (by decide)

/-- A whitespace character is not a digit. -/
lemma isWs_not_digit {c : Char} (h : c.isWhitespace = true) :
    c.isDigit = false := by
  cases hd : c.isDigit
  · rfl
  · have h2 := isDigit_not_ws hd
    rw [h] at h2
    exact absurd h2 (by simp)

/-- Decomposition underlying a successful `findSome?`. -/
lemma findSome?_eq_some_decomp {α β : Type} {f : α → Option β} :
    ∀ {l : List α} {b : β}, l.findSome? f = some b →
      ∃ l1 a l2, l = l1 ++ a :: l2 ∧ f a = some b ∧
        ∀ x ∈ l1, f x = none := by
  intro l
  induction l with
  | nil => intro b h; simp at h
  | cons a t ih =>
    intro b h
    rw [List.findSome?_cons] at h
    cases ha : f a with
    | some b' =>
      rw [ha] at h
      refine ⟨[], a, t, by simp, ?_, by simp⟩
      simpa [ha] using h
    | none =>
      rw [ha] at h
      obtain ⟨l1, x, l2, hsplit, hx, hnone⟩ := ih h
      refine ⟨a :: l1, x, l2, by simp [hsplit], hx, ?_⟩
      intro y hy
      rcases List.mem_cons.1 hy with hy | hy
      · exact hy ▸ ha
      · exact hnone y hy

/-- `findSome?` succeeds on a list decomposed around its first hit. -/
lemma findSome?_eq_some_of_decomp {α β : Type} {f : α → Option β}
    (l1 : List α) (a : α) (l2 : List α) (b : β)
    (ha : f a = some b) (h1 : ∀ x ∈ l1, f x = none) :
    (l1 ++ a :: l2).findSome? f = some b := by
  induction l1 with
  | nil => simp [List.findSome?_cons, ha]
  | cons y t ih =>
    have hy : f y = none := h1 y (by simp)
    simp only [List.cons_append, List.findSome?_cons, hy]
    exact ih (fun x hx => h1 x (by simp [hx]))

/-- Characterization of `INTEGER_LINE_RE` matching: the line splits as
whitespace, one to twelve digits, whitespace, and the value is the
digits' value. -/
lemma intLineMatch_eq_some_iff (ln : String) (n : Nat) :
    intLineMatch ln = some n ↔
      ∃ w1 ds w2, ln.toList = w1 ++ ds ++ w2 ∧
        (∀ c ∈ w1, c.isWhitespace = true) ∧
        (∀ c ∈ ds, c.isDigit = true) ∧
        (∀ c ∈ w2, c.isWhitespace = true) ∧
        1 ≤ ds.length ∧ ds.length ≤ 12 ∧ n = digitsToNat ds := by
  constructor
  · intro h
    unfold intLineMatch at h
    by_cases hcond : (1 ≤ (((ln.toList.dropWhile Char.isWhitespace)).takeWhile
          Char.isDigit).length &&
        (((ln.toList.dropWhile Char.isWhitespace)).takeWhile
          Char.isDigit).length ≤ 12 &&
        (((ln.toList.dropWhile Char.isWhitespace)).dropWhile
          Char.isDigit).all Char.isWhitespace) = true
    · rw [if_pos hcond] at h
      simp only [Bool.and_eq_true, decide_eq_true_eq, List.all_eq_true]
        at hcond
      refine ⟨ln.toList.takeWhile Char.isWhitespace,
        (ln.toList.dropWhile Char.isWhitespace).takeWhile Char.isDigit,
        (ln.toList.dropWhile Char.isWhitespace).dropWhile Char.isDigit,
        ?_, ?_, ?_, ?_, hcond.1.1, hcond.1.2, ?_⟩
      · rw [List.append_assoc, List.takeWhile_append_dropWhile,
          List.takeWhile_append_dropWhile]
      · exact mem_takeWhile_pred _
      · exact mem_takeWhile_pred _
      · exact hcond.2
      · simpa using h.symm
    · rw [if_neg hcond] at h
      exact absurd h (by simp)
  · rintro ⟨w1, ds, w2, hsplit, hw1, hds, hw2, hlen1, hlen2, hval⟩
    have hds_ne : ds ≠ [] := by
      intro h0
      rw [h0] at hlen1
      simp at hlen1
    have hdrop1 : (w1 ++ (ds ++ w2)).dropWhile Char.isWhitespace =
        ds ++ w2 := by
      refine (takeWhile_dropWhile_of_split w1 (ds ++ w2) hw1 ?_).2
      intro c hc
      cases ds with
      | nil => exact absurd rfl hds_ne
      | cons d t =>
        simp at hc
        exact hc ▸ isDigit_not_ws (hds d (by simp))
    have hsplit2 : (ds ++ w2).takeWhile Char.isDigit = ds ∧
        (ds ++ w2).dropWhile Char.isDigit = w2 := by
      refine takeWhile_dropWhile_of_split ds w2 hds ?_
      intro c hc
      cases w2 with
      | nil => simp at hc
      | cons d t =>
        simp at hc
        exact hc ▸ isWs_not_digit (hw2 d (by simp))
    unfold intLineMatch
    rw [hsplit, List.append_assoc, hdrop1, hsplit2.1, hsplit2.2]
    rw [if_pos]
    · exact congrArg some hval.symm
    · simp only [Bool.and_eq_true, decide_eq_true_eq, List.all_eq_true]
      exact ⟨⟨hlen1, hlen2⟩, hw2⟩

/-- C7 amended: the count-only extractor returns the value of the first
line matching the integer-line pattern (optional whitespace, one to
twelve digits, optional whitespace), `none` when no line matches, and
the pattern match is characterized by the whitespace/digit split. -/
theorem parseOrdersCountProof_characterization (t : String) :
    (∀ n, parseOrdersCountProof t = some n ↔
      ∃ pre ln post, splitlines t = pre ++ ln :: post ∧
        intLineMatch ln = some n ∧ ∀ l ∈ pre, intLineMatch l = none) ∧
    (parseOrdersCountProof t = none ↔
      ∀ l ∈ splitlines t, intLineMatch l = none) ∧
    (∀ ln n, intLineMatch ln = some n ↔
      ∃ w1 ds w2, ln.toList = w1 ++ ds ++ w2 ∧
        (∀ c ∈ w1, c.isWhitespace = true) ∧
        (∀ c ∈ ds, c.isDigit = true) ∧
        (∀ c ∈ w2, c.isWhitespace = true) ∧
        1 ≤ ds.length ∧ ds.length ≤ 12 ∧ n = digitsToNat ds) := by
  refine ⟨?_, ?_, fun ln n => intLineMatch_eq_some_iff ln n⟩
  · intro n
    by_cases ht : t = ""
    · subst ht
      constructor
      · intro h
        simp [parseOrdersCountProof] at h
      · rintro ⟨pre, ln, post, hsplit, -, -⟩
        have : splitlines "" = [] := rfl
        rw [this] at hsplit
        exact absurd hsplit.symm (by simp)
    · rw [parseOrdersCountProof, if_neg ht]
      constructor
      · intro h
        exact findSome?_eq_some_decomp h
      · rintro ⟨pre, ln, post, hsplit, hln, hpre⟩
        rw [hsplit]
        exact findSome?_eq_some_of_decomp pre ln post n hln hpre
  · by_cases ht : t = ""
    · subst ht
      constructor
      · intro _ l hl
        have : splitlines "" = [] := rfl
        rw [this] at hl
        simp at hl
      · intro _
        simp [parseOrdersCountProof]
    · rw [parseOrdersCountProof, if_neg ht]
      exact List.findSome?_eq_none_iff

/-- `addFactor` preserves the score-equals-sum-of-weights invariant. -/
lemma addFactor_sum (st : Nat × List Factor) (name : String)
    (ev : Evidence) (h : st.1 = sumW st.2) :
    (addFactor st name ev).1 = sumW (addFactor st name ev).2 := by
  simp [addFactor, sumW, h]

/-- Membership after `addFactor`. -/
lemma addFactor_mem {st : Nat × List Factor} {name : String}
    {ev : Evidence} {f : Factor} :
    f ∈ (addFactor st name ev).2 ↔
      f ∈ st.2 ∨ f = ⟨name, RISK_WEIGHTS name, ev⟩ := by
  simp [addFactor]

/-- `addFactor` keeps earlier factors. -/
lemma mem_addFactor_left {st : Nat × List Factor} {name : String}
    {ev : Evidence} {f : Factor} (h : f ∈ st.2) :
    f ∈ (addFactor st name ev).2 := by
  simp [addFactor, h]

/-- The missing-required-log fold preserves the score invariant. -/
lemma missingFold_sum :
    ∀ (logs : List LogResult) (st : Nat × List Factor),
      st.1 = sumW st.2 →
      (logs.foldl missingLogStep st).1 =
        sumW (logs.foldl missingLogStep st).2 := by
  intro logs
  induction logs with
  | nil => intro st h; simpa using h
  | cons lr t ih =>
    intro st h
    rw [List.foldl_cons]
    apply ih
    unfold missingLogStep
    split
    · exact h
    · exact addFactor_sum st _ _ h

/-- Factors produced by the missing-required-log fold. -/
lemma missingFold_mem :
    ∀ (logs : List LogResult) (st : Nat × List Factor) (f : Factor),
      f ∈ (logs.foldl missingLogStep st).2 →
      f ∈ st.2 ∨ (f.factor = "missing_required_log" ∧
        f.weight = RISK_WEIGHTS f.factor) := by
  intro logs
  induction logs with
  | nil => intro st f hf; exact Or.inl hf
  | cons lr t ih =>
    intro st f hf
    rw [List.foldl_cons] at hf
    rcases ih (missingLogStep st lr) f hf with hf' | hf'
    · unfold missingLogStep at hf'
      split at hf'
      · exact Or.inl hf'
      · rcases addFactor_mem.1 hf' with hf'' | hf''
        · exact Or.inl hf''
        · rw [hf'']
          exact Or.inr ⟨rfl, rfl⟩
    · exact Or.inr hf'

/-- Per-stage membership trace: a factor in the output of a stage is
either input or the stage's own factor with its table weight. -/
lemma riskStageMissingImpdp_mem {impdp : Option LogResult}
    {st : Nat × List Factor} {f : Factor}
    (hf : f ∈ (riskStageMissingImpdp impdp st).2) :
    f ∈ st.2 ∨ (f.factor = "missing_impdp_log" ∧
      f.weight = RISK_WEIGHTS f.factor) := by
  unfold riskStageMissingImpdp at hf
  split at hf
  · exact Or.inl hf
  · rcases addFactor_mem.1 hf with h | h
    · exact Or.inl h
    · rw [h]
      exact Or.inr ⟨rfl, rfl⟩

lemma riskStageRetry_mem {impdp_count : Nat} {st : Nat × List Factor}
    {f : Factor} (hf : f ∈ (riskStageRetry impdp_count st).2) :
    f ∈ st.2 ∨ (f.factor = "impdp_retry_present" ∧
      f.weight = RISK_WEIGHTS f.factor) := by
  unfold riskStageRetry at hf
  split at hf
  · rcases addFactor_mem.1 hf with h | h
    · exact Or.inl h
    · rw [h]
      exact Or.inr ⟨rfl, rfl⟩
  · exact Or.inl hf

lemma riskStageSeverity_mem {impdp : Option LogResult}
    {st : Nat × List Factor} {f : Factor}
    (hf : f ∈ (riskStageSeverity impdp st).2) :
    f ∈ st.2 ∨
      (fatalPresentIn impdp = true ∧ f.factor = "fatal_ora_present" ∧
        f.weight = RISK_WEIGHTS f.factor) ∨
      (fatalPresentIn impdp = false ∧ f.factor = "warn_ora_present" ∧
        f.weight = RISK_WEIGHTS f.factor) := by
  unfold riskStageSeverity at hf
  by_cases hfp : fatalPresentIn impdp = true
  · rw [if_pos hfp] at hf
    rcases addFactor_mem.1 hf with h | h
    · exact Or.inl h
    · rw [h]
      exact Or.inr (Or.inl ⟨hfp, rfl, rfl⟩)
  · rw [if_neg hfp] at hf
    have hfp' : fatalPresentIn impdp = false := by
      simpa using hfp
    split at hf
    · rcases addFactor_mem.1 hf with h | h
      · exact Or.inl h
      · rw [h]
        exact Or.inr (Or.inr ⟨hfp', rfl, rfl⟩)
    · exact Or.inl hf

lemma riskStageMarker_mem {impdp : Option LogResult}
    {st : Nat × List Factor} {f : Factor}
    (hf : f ∈ (riskStageMarker impdp st).2) :
    f ∈ st.2 ∨ (f.factor = "dp_completion_marker_missing" ∧
      f.weight = RISK_WEIGHTS f.factor) := by
  unfold riskStageMarker at hf
  split at hf
  · rcases addFactor_mem.1 hf with h | h
    · exact Or.inl h
    · rw [h]
      exact Or.inr ⟨rfl, rfl⟩
  · exact Or.inl hf

lemma riskStageExpdp_mem {expdp : Option LogResult}
    {st : Nat × List Factor} {f : Factor}
    (hf : f ∈ (riskStageExpdp expdp st).2) :
    f ∈ st.2 ∨ (f.factor = "expdp_completed_with_errors" ∧
      f.weight = RISK_WEIGHTS f.factor) := by
  unfold riskStageExpdp at hf
  split at hf
  · rcases addFactor_mem.1 hf with h | h
    · exact Or.inl h
    · rw [h]
      exact Or.inr ⟨rfl, rfl⟩
  · exact Or.inl hf

lemma riskStageInvalid_mem {validation : ValidationResult}
    {st : Nat × List Factor} {f : Factor}
    (hf : f ∈ (riskStageInvalid validation st).2) :
    f ∈ st.2 ∨ (f.factor = "validation_invalid_objects_present" ∧
      f.weight = RISK_WEIGHTS f.factor) := by
  unfold riskStageInvalid at hf
  split at hf
  · split at hf
    · rcases addFactor_mem.1 hf with h | h
      · exact Or.inl h
      · rw [h]
        exact Or.inr ⟨rfl, rfl⟩
    · exact Or.inl hf
  · exact Or.inl hf

lemma riskStageOrders_mem {validation : ValidationResult}
    {st : Nat × List Factor} {f : Factor}
    (hf : f ∈ (riskStageOrders validation st).2) :
    f ∈ st.2 ∨ (f.factor = "validation_orders_count_missing" ∧
      f.weight = RISK_WEIGHTS f.factor) := by
  unfold riskStageOrders at hf
  split at hf
  · rcases addFactor_mem.1 hf with h | h
    · exact Or.inl h
    · rw [h]
      exact Or.inr ⟨rfl, rfl⟩
  · exact Or.inl hf

/-- Each stage preserves the score invariant. -/
lemma riskStageMissingImpdp_sum {impdp : Option LogResult}
    {st : Nat × List Factor} (h : st.1 = sumW st.2) :
    (riskStageMissingImpdp impdp st).1 =
      sumW (riskStageMissingImpdp impdp st).2 := by
  unfold riskStageMissingImpdp
  split
  · exact h
  · exact addFactor_sum st _ _ h

lemma riskStageRetry_sum {impdp_count : Nat} {st : Nat × List Factor}
    (h : st.1 = sumW st.2) :
    (riskStageRetry impdp_count st).1 =
      sumW (riskStageRetry impdp_count st).2 := by
  unfold riskStageRetry
  split
  · exact addFactor_sum st _ _ h
  · exact h

lemma riskStageSeverity_sum {impdp : Option LogResult}
    {st : Nat × List Factor} (h : st.1 = sumW st.2) :
    (riskStageSeverity impdp st).1 =
      sumW (riskStageSeverity impdp st).2 := by
  unfold riskStageSeverity
  split
  · exact addFactor_sum st _ _ h
  · split
    · exact addFactor_sum st _ _ h
    · exact h

lemma riskStageMarker_sum {impdp : Option LogResult}
    {st : Nat × List Factor} (h : st.1 = sumW st.2) :
    (riskStageMarker impdp st).1 = sumW (riskStageMarker impdp st).2 := by
  unfold riskStageMarker
  split
  · exact addFactor_sum st _ _ h
  · exact h

lemma riskStageExpdp_sum {expdp : Option LogResult}
    {st : Nat × List Factor} (h : st.1 = sumW st.2) :
    (riskStageExpdp expdp st).1 = sumW (riskStageExpdp expdp st).2 := by
  unfold riskStageExpdp
  split
  · exact addFactor_sum st _ _ h
  · exact h

lemma riskStageInvalid_sum {validation : ValidationResult}
    {st : Nat × List Factor} (h : st.1 = sumW st.2) :
    (riskStageInvalid validation st).1 =
      sumW (riskStageInvalid validation st).2 := by
  unfold riskStageInvalid
  split
  · split
    · exact addFactor_sum st _ _ h
    · exact h
  · exact h

lemma riskStageOrders_sum {validation : ValidationResult}
    {st : Nat × List Factor} (h : st.1 = sumW st.2) :
    (riskStageOrders validation st).1 =
      sumW (riskStageOrders validation st).2 := by
  unfold riskStageOrders
  split
  · exact addFactor_sum st _ _ h
  · exact h

/-- The later stages keep every factor already present. -/
lemma riskStageMarker_mono {impdp : Option LogResult}
    {st : Nat × List Factor} {f : Factor} (h : f ∈ st.2) :
    f ∈ (riskStageMarker impdp st).2 := by
  unfold riskStageMarker
  split
  · exact mem_addFactor_left h
  · exact h

lemma riskStageExpdp_mono {expdp : Option LogResult}
    {st : Nat × List Factor} {f : Factor} (h : f ∈ st.2) :
    f ∈ (riskStageExpdp expdp st).2 := by
  unfold riskStageExpdp
  split
  · exact mem_addFactor_left h
  · exact h

lemma riskStageInvalid_mono {validation : ValidationResult}
    {st : Nat × List Factor} {f : Factor} (h : f ∈ st.2) :
    f ∈ (riskStageInvalid validation st).2 := by
  unfold riskStageInvalid
  split
  · split
    · exact mem_addFactor_left h
    · exact h
  · exact h

lemma riskStageOrders_mono {validation : ValidationResult}
    {st : Nat × List Factor} {f : Factor} (h : f ∈ st.2) :
    f ∈ (riskStageOrders validation st).2 := by
  unfold riskStageOrders
  split
  · exact mem_addFactor_left h
  · exact h

/-- Insertion permutes with consing. -/
lemma insertLE_perm {α : Type} (le : α → α → Bool) (a : α) :
    ∀ (l : List α), (insertLE le a l).Perm (a :: l) := by
  intro l
  induction l with
  | nil => simp [insertLE]
  | cons b t ih =>
    unfold insertLE
    split
    · exact List.Perm.refl _
    · exact (ih.cons b).trans (List.Perm.swap a b t)

/-- The stable sort is a permutation of its input. -/
lemma sortByLE_perm {α : Type} (le : α → α → Bool) :
    ∀ (l : List α), (sortByLE le l).Perm l := by
  intro l
  induction l with
  | nil => simp [sortByLE]
  | cons a t ih =>
    unfold sortByLE
    exact (insertLE_perm le a (sortByLE le t)).trans (ih.cons a)

/-- Insertion preserves the ascending pairwise invariant. -/
lemma insertLE_pairwise {α : Type} {le : α → α → Bool}
    (htrans : ∀ a b c, le a b = true → le b c = true → le a c = true)
    (htotal : ∀ a b, (le a b || le b a) = true) (a : α) :
    ∀ (l : List α), l.Pairwise (fun x y => le x y = true) →
      (insertLE le a l).Pairwise (fun x y => le x y = true) := by
  intro l
  induction l with
  | nil =>
    intro _
    simp [insertLE]
  | cons b t ih =>
    intro hp
    rcases List.pairwise_cons.1 hp with ⟨hbt, hpt⟩
    unfold insertLE
    by_cases hab : le a b = true
    · rw [if_pos hab]
      refine List.pairwise_cons.2 ⟨?_, hp⟩
      intro x hx
      rcases List.mem_cons.1 hx with rfl | hx'
      · exact hab
      · exact htrans a b x hab (hbt x hx')
    · rw [if_neg hab]
      have hba : le b a = true := by
        have hor : le a b = true ∨ le b a = true := by
          simpa using htotal a b
        rcases hor with hh | hh
        · exact absurd hh hab
        · exact hh
      refine List.pairwise_cons.2 ⟨?_, ih hpt⟩
      intro x hx
      have hx' : x ∈ a :: t := (insertLE_perm le a t).mem_iff.1 hx
      rcases List.mem_cons.1 hx' with rfl | hx''
      · exact hba
      · exact hbt x hx''

/-- The stable sort is ascending for a transitive total comparison. -/
lemma sortByLE_pairwise {α : Type} {le : α → α → Bool}
    (htrans : ∀ a b c, le a b = true → le b c = true → le a c = true)
    (htotal : ∀ a b, (le a b || le b a) = true) :
    ∀ (l : List α),
      (sortByLE le l).Pairwise (fun x y => le x y = true) := by
  intro l
  induction l with
  | nil => simp [sortByLE]
  | cons a t ih =>
    unfold sortByLE
    exact insertLE_pairwise htrans htotal a (sortByLE le t) ih

/-- The scorer's `bool(fatal_codes)` agrees with fatal-code membership
in the selected import log's mapping. -/
lemma fatalPresentIn_iff_hasFatal (impdp : Option LogResult) :
    fatalPresentIn impdp = true ↔
      hasFatalCode (impOraCounts impdp) = true := by
  unfold fatalPresentIn severityCodes hasFatalCode
  rw [Bool.not_eq_true']
  have hperm := sortByLE_perm (fun a b : String => decide (a ≤ b))
    (((impOraCounts impdp).map Prod.fst).filter
      (fun c => FATAL_ORA.contains c))
  constructor
  · intro h
    have hne : (((impOraCounts impdp).map Prod.fst).filter
        (fun c => FATAL_ORA.contains c)) ≠ [] := by
      intro h0
      have hnil : sortByLE (fun a b : String => decide (a ≤ b))
          (((impOraCounts impdp).map Prod.fst).filter
            (fun c => FATAL_ORA.contains c)) = [] := by
        rw [h0]
        rfl
      rw [hnil] at h
      simp at h
    rcases List.exists_mem_of_ne_nil _ hne with ⟨x, hx⟩
    rw [List.mem_filter] at hx
    rcases List.mem_map.1 hx.1 with ⟨pr, hpr, hfst⟩
    rw [List.any_eq_true]
    exact ⟨pr, hpr, by rw [hfst]; exact hx.2⟩
  · intro h
    rw [List.any_eq_true] at h
    obtain ⟨pr, hpr, hc⟩ := h
    have hmem : pr.1 ∈ (((impOraCounts impdp).map Prod.fst).filter
        (fun c => FATAL_ORA.contains c)) :=
      List.mem_filter.2 ⟨List.mem_map.2 ⟨pr, hpr, rfl⟩, hc⟩
    have hmem2 := (hperm.mem_iff).2 hmem
    cases hE : (sortByLE (fun a b : String => decide (a ≤ b))
        (((impOraCounts impdp).map Prod.fst).filter
          (fun c => FATAL_ORA.contains c))).isEmpty
    · rfl
    · rw [List.isEmpty_iff] at hE
      rw [hE] at hmem2
      simp at hmem2

/-- When a fatal code is present the severity stage records the fatal
factor. -/
lemma riskStageSeverity_adds_fatal {impdp : Option LogResult}
    {st : Nat × List Factor} (hfp : fatalPresentIn impdp = true) :
    (⟨"fatal_ora_present", RISK_WEIGHTS "fatal_ora_present",
        Evidence.codes (severityCodes (impOraCounts impdp) FATAL_ORA)⟩ :
      Factor) ∈ (riskStageSeverity impdp st).2 := by
  unfold riskStageSeverity
  rw [if_pos hfp]
  exact addFactor_mem.2 (Or.inr rfl)

/-- C4: the risk score is the sum of the weights of the triggered
factors (each carrying its fixed table weight), capped at 100; the
fatal-code and warn-code factors are mutually exclusive with fatal
taking precedence; and the level thresholds are HIGH iff score ≥ 70,
MEDIUM iff 35 ≤ score < 70, LOW otherwise. -/
theorem riskScore_spec (required_logs : List LogResult)
    (impdp : Option LogResult) (impdp_count : Nat)
    (expdp : Option LogResult) (validation : ValidationResult) :
    ((riskScore required_logs impdp impdp_count expdp validation).1 =
      min 100 (sumW
        (riskScore required_logs impdp impdp_count expdp validation).2)) ∧
    (∀ f ∈ (riskScore required_logs impdp impdp_count expdp validation).2,
      f.weight = RISK_WEIGHTS f.factor) ∧
    ¬("fatal_ora_present" ∈
        (riskScore required_logs impdp impdp_count expdp
          validation).2.map Factor.factor ∧
      "warn_ora_present" ∈
        (riskScore required_logs impdp impdp_count expdp
          validation).2.map Factor.factor) ∧
    (hasFatalCode (impOraCounts impdp) = true →
      "fatal_ora_present" ∈
        (riskScore required_logs impdp impdp_count expdp
          validation).2.map Factor.factor ∧
      "warn_ora_present" ∉
        (riskScore required_logs impdp impdp_count expdp
          validation).2.map Factor.factor) ∧
    (∀ s, (riskLevel s = "HIGH" ↔ 70 ≤ s) ∧
      (riskLevel s = "MEDIUM" ↔ 35 ≤ s ∧ s < 70) ∧
      (riskLevel s = "LOW" ↔ s < 35)) := by
  set st0 := required_logs.foldl missingLogStep (0, []) with hst0
  set st1 := riskStageMissingImpdp impdp st0 with hst1
  set st2 := riskStageRetry impdp_count st1 with hst2
  set st3 := riskStageSeverity impdp st2 with hst3
  set st4 := riskStageMarker impdp st3 with hst4
  set st5 := riskStageExpdp expdp st4 with hst5
  set st6 := riskStageInvalid validation st5 with hst6
  set st7 := riskStageOrders validation st6 with hst7
  have hr : riskScore required_logs impdp impdp_count expdp validation =
      (min 100 st7.1, st7.2) := rfl
  have hsum : st7.1 = sumW st7.2 := by
    rw [hst7]
    apply riskStageOrders_sum
    rw [hst6]
    apply riskStageInvalid_sum
    rw [hst5]
    apply riskStageExpdp_sum
    rw [hst4]
    apply riskStageMarker_sum
    rw [hst3]
    apply riskStageSeverity_sum
    rw [hst2]
    apply riskStageRetry_sum
    rw [hst1]
    apply riskStageMissingImpdp_sum
    rw [hst0]
    exact missingFold_sum required_logs (0, []) rfl
  have hweight : ∀ f ∈ st7.2, f.weight = RISK_WEIGHTS f.factor := by
    intro f hf
    rcases riskStageOrders_mem hf with hf | hl
    · rcases riskStageInvalid_mem hf with hf | hl
      · rcases riskStageExpdp_mem hf with hf | hl
        · rcases riskStageMarker_mem hf with hf | hl
          · rcases riskStageSeverity_mem hf with hf | hl | hl
            · rcases riskStageRetry_mem hf with hf | hl
              · rcases riskStageMissingImpdp_mem hf with hf | hl
                · rcases missingFold_mem required_logs (0, []) f hf
                    with hf | hl
                  · simp at hf
                  · rw [hl.1]
                    rw [hl.1] at hl
                    exact hl.2
                · exact hl.2
              · exact hl.2
            · exact hl.2.2
            · exact hl.2.2
          · exact hl.2
        · exact hl.2
      · exact hl.2
    · exact hl.2
  have hfatal_trace : ∀ f ∈ st7.2, f.factor = "fatal_ora_present" →
      fatalPresentIn impdp = true := by
    intro f hf hname
    rcases riskStageOrders_mem hf with hf | hl
    · rcases riskStageInvalid_mem hf with hf | hl
      · rcases riskStageExpdp_mem hf with hf | hl
        · rcases riskStageMarker_mem hf with hf | hl
          · rcases riskStageSeverity_mem hf with hf | hl | hl
            · rcases riskStageRetry_mem hf with hf | hl
              · rcases riskStageMissingImpdp_mem hf with hf | hl
                · rcases missingFold_mem required_logs (0, []) f hf
                    with hf | hl
                  · simp at hf
                  · rw [hname] at hl
                    exact absurd hl.1 (by decide)
                · rw [hname] at hl
                  exact absurd hl.1 (by decide)
              · rw [hname] at hl
                exact absurd hl.1 (by decide)
            · exact hl.1
            · rw [hname] at hl
              exact absurd hl.2.1 (by decide)
          · rw [hname] at hl
            exact absurd hl.1 (by decide)
        · rw [hname] at hl
          exact absurd hl.1 (by decide)
      · rw [hname] at hl
        exact absurd hl.1 (by decide)
    · rw [hname] at hl
      exact absurd hl.1 (by decide)
  have hwarn_trace : ∀ f ∈ st7.2, f.factor = "warn_ora_present" →
      fatalPresentIn impdp = false := by
    intro f hf hname
    rcases riskStageOrders_mem hf with hf | hl
    · rcases riskStageInvalid_mem hf with hf | hl
      · rcases riskStageExpdp_mem hf with hf | hl
        · rcases riskStageMarker_mem hf with hf | hl
          · rcases riskStageSeverity_mem hf with hf | hl | hl
            · rcases riskStageRetry_mem hf with hf | hl
              · rcases riskStageMissingImpdp_mem hf with hf | hl
                · rcases missingFold_mem required_logs (0, []) f hf
                    with hf | hl
                  · simp at hf
                  · rw [hname] at hl
                    exact absurd hl.1 (by decide)
                · rw [hname] at hl
                  exact absurd hl.1 (by decide)
              · rw [hname] at hl
                exact absurd hl.1 (by decide)
            · rw [hname] at hl
              exact absurd hl.2.1 (by decide)
            · exact hl.1
          · rw [hname] at hl
            exact absurd hl.1 (by decide)
        · rw [hname] at hl
          exact absurd hl.1 (by decide)
      · rw [hname] at hl
        exact absurd hl.1 (by decide)
    · rw [hname] at hl
      exact absurd hl.1 (by decide)
  refine ⟨?_, ?_, ?_, ?_, ?_⟩
  · rw [hr]
    rw [hsum]
  · intro f hf
    rw [hr] at hf
    exact hweight f hf
  · rintro ⟨hfat, hwrn⟩
    rw [hr] at hfat hwrn
    rcases List.mem_map.1 hfat with ⟨f, hfmem, hfname⟩
    rcases List.mem_map.1 hwrn with ⟨g, hgmem, hgname⟩
    have h1 := hfatal_trace f hfmem hfname
    have h2 := hwarn_trace g hgmem hgname
    rw [h1] at h2
    exact absurd h2 (by simp)
  · intro hfc
    have hfp : fatalPresentIn impdp = true :=
      (fatalPresentIn_iff_hasFatal impdp).2 hfc
    constructor
    · rw [hr]
      have hmem3 : (⟨"fatal_ora_present", RISK_WEIGHTS "fatal_ora_present",
          Evidence.codes (severityCodes (impOraCounts impdp) FATAL_ORA)⟩ :
            Factor) ∈ st3.2 := by
        rw [hst3]
        exact riskStageSeverity_adds_fatal hfp
      have hmem7 : (⟨"fatal_ora_present", RISK_WEIGHTS "fatal_ora_present",
          Evidence.codes (severityCodes (impOraCounts impdp) FATAL_ORA)⟩ :
            Factor) ∈ st7.2 := by
        rw [hst7]
        apply riskStageOrders_mono
        rw [hst6]
        apply riskStageInvalid_mono
        rw [hst5]
        apply riskStageExpdp_mono
        rw [hst4]
        exact riskStageMarker_mono hmem3
      exact List.mem_map.2 ⟨_, hmem7, rfl⟩
    · intro hwrn
      rw [hr] at hwrn
      rcases List.mem_map.1 hwrn with ⟨g, hgmem, hgname⟩
      have h2 := hwarn_trace g hgmem hgname
      rw [hfp] at h2
      exact absurd h2 (by simp)
  · intro s
    refine ⟨?_, ?_, ?_⟩ <;> unfold riskLevel <;> split_ifs with h1 h2 <;>
      simp <;> omega

/-- `candLE` in propositional form. -/
lemma candLE_iff (a b : S3Obj × Nat) :
    candLE a b = true ↔
      (a.2 < b.2 ∨ (a.2 = b.2 ∧ a.1.last_modified ≤ b.1.last_modified)) := by
  simp [candLE]

/-- `candLE` is reflexive. -/
lemma candLE_refl (a : S3Obj × Nat) : candLE a a = true := by
  simp [candLE]

/-- `candLE` is transitive. -/
lemma candLE_trans (a b c : S3Obj × Nat) (hab : candLE a b = true)
    (hbc : candLE b c = true) : candLE a c = true := by
  rw [candLE_iff] at hab hbc ⊢
  omega

/-- `candLE` is total. -/
lemma candLE_total (a b : S3Obj × Nat) :
    (candLE a b || candLE b a) = true := by
  rw [Bool.or_eq_true, candLE_iff, candLE_iff]
  omega

/-- In a pairwise-related list, every element relates to the last. -/
lemma pairwise_rel_getLast {α : Type} {R : α → α → Prop}
    (hrefl : ∀ a, R a a) :
    ∀ (l : List α) (hne : l ≠ []), l.Pairwise R →
      ∀ x ∈ l, R x (l.getLast hne) := by
  intro l
  induction l with
  | nil => intro hne; exact absurd rfl hne
  | cons a t ih =>
    intro hne hp x hx
    cases t with
    | nil =>
      rcases List.mem_singleton.1 hx with rfl
      exact hrefl x
    | cons b t2 =>
      have hlast : (a :: b :: t2).getLast hne =
          (b :: t2).getLast (by simp) :=
        List.getLast_cons (by simp)
      rw [hlast]
      rcases List.mem_cons.1 hx with rfl | hx'
      · have hrel := List.pairwise_cons.1 hp
        exact hrel.1 _ (List.getLast_mem (by simp))
      · exact ih (by simp) (List.pairwise_cons.1 hp).2 x hx'

/-- C3: on a non-empty candidate list the selector returns the key of a
candidate maximal in ascending `(retry_number, last_modified)` order,
reports the candidate count, and cites retry-number precedence exactly
when the maximum retry number is positive; on an empty candidate list it
returns no key with reason `no_candidates`. -/
theorem pickBestImpdpLog_spec (objs : List S3Obj) (runPfx : String) :
    (impdpCandidates objs = [] →
      pickBestImpdpLog objs runPfx = (none, 0, [], "no_candidates")) ∧
    (impdpCandidates objs ≠ [] →
      ∃ c, c ∈ impdpCandidates objs ∧
        (pickBestImpdpLog objs runPfx).1 = some c.1.key ∧
        (∀ p ∈ impdpCandidates objs, candLE p c = true) ∧
        (pickBestImpdpLog objs runPfx).2.1 =
          (impdpCandidates objs).length ∧
        (pickBestImpdpLog objs runPfx).2.2.2 =
          (if 0 < maxRetry (impdpCandidates objs) then
            "filename_retry_number_then_lastmodified"
          else "lastmodified")) := by
  constructor
  · intro h
    unfold pickBestImpdpLog candMetaOf
    rw [h]
    simp
  · intro h
    have hne : ¬(impdpCandidates objs).isEmpty = true := by
      simpa [List.isEmpty_iff] using h
    have hperm : (sortByLE candLE (impdpCandidates objs)).Perm
        (impdpCandidates objs) :=
      sortByLE_perm candLE (impdpCandidates objs)
    have hsne : sortByLE candLE (impdpCandidates objs) ≠ [] := by
      intro h0
      have hlen := hperm.length_eq
      rw [h0] at hlen
      exact h (List.length_eq_zero.1 hlen.symm)
    have hsorted : (sortByLE candLE (impdpCandidates objs)).Pairwise
        (fun a b => candLE a b = true) :=
      sortByLE_pairwise candLE_trans candLE_total (impdpCandidates objs)
    have hlastD : (sortByLE candLE (impdpCandidates objs)).getLastD
        (⟨"", 0, 0⟩, 0) =
        (sortByLE candLE (impdpCandidates objs)).getLast hsne := by
      rw [List.getLastD_eq_getLast?, List.getLast?_eq_getLast _ hsne]
      rfl
    refine ⟨(sortByLE candLE (impdpCandidates objs)).getLast hsne,
      ?_, ?_, ?_, ?_, ?_⟩
    · exact hperm.subset (List.getLast_mem hsne)
    · unfold pickBestImpdpLog
      rw [if_neg hne, hlastD]
    · intro p hp
      have hpmem : p ∈ sortByLE candLE (impdpCandidates objs) :=
        (hperm.mem_iff).2 hp
      exact pairwise_rel_getLast candLE_refl _ hsne hsorted p hpmem
    · unfold pickBestImpdpLog
      rw [if_neg hne]
    · unfold pickBestImpdpLog
      rw [if_neg hne]

/-- A hit index is a valid line index. -/
lemma firstHitIdx_lt :
    ∀ (lines : List (List Char)) (codeU : List Char) (i : Nat),
      firstHitIdx lines codeU = some i → i < lines.length := by
  intro lines
  induction lines with
  | nil => intro codeU i h; simp [firstHitIdx] at h
  | cons ln rest ih =>
    intro codeU i h
    unfold firstHitIdx at h
    split at h
    · injection h with h
      subst h
      simp
    · cases hrec : firstHitIdx rest codeU with
      | none => rw [hrec] at h; simp at h
      | some j =>
        rw [hrec] at h
        simp at h
        have := ih codeU j hrec
        simp [← h]
        omega

/-- The window around a valid hit index is non-empty. -/
lemma windowChunk_len_pos (lines : List (List Char)) (i ctx : Nat)
    (h : i < lines.length) : 0 < (windowChunk lines i ctx).length := by
  unfold windowChunk
  rw [List.length_map, List.length_take, List.length_drop]
  omega

/-- The truncated chunk fits in the remaining budget. -/
lemma truncChunk_length_le (chunk0 : List String) (remaining : Nat) :
    (truncChunk chunk0 remaining).length ≤ remaining := by
  unfold truncChunk
  split
  · simp [List.length_take]
  · omega

/-- The truncated chunk is a non-empty prefix of the window when the
window is non-empty and budget remains. -/
lemma truncChunk_eq_take (chunk0 : List String) (remaining : Nat)
    (h0 : 0 < chunk0.length) (hrem : remaining ≠ 0) :
    ∃ m, 0 < m ∧ truncChunk chunk0 remaining = chunk0.take m := by
  unfold truncChunk
  split
  · exact ⟨remaining, by omega, rfl⟩
  · exact ⟨chunk0.length, h0, (List.take_length _).symm⟩

/-- `dictInsert` grows the total line count by at most the new chunk. -/
lemma sumLens_dictInsert :
    ∀ (m : List (String × List String)) (k : String) (v : List String),
      sumLens (dictInsert m k v) ≤ sumLens m + v.length := by
  intro m
  induction m with
  | nil => intro k v; simp [dictInsert, sumLens]
  | cons kv t ih =>
    intro k v
    unfold dictInsert
    split
    · simp [sumLens]
      omega
    · have := ih k v
      simp [sumLens] at this ⊢
      omega

/-- Membership after `dictInsert`. -/
lemma dictInsert_mem :
    ∀ (m : List (String × List String)) (k : String) (v : List String)
      (p : String × List String), p ∈ dictInsert m k v →
      p ∈ m ∨ p = (k, v) := by
  intro m
  induction m with
  | nil => intro k v p hp; simp [dictInsert] at hp; exact Or.inr hp
  | cons kv t ih =>
    intro k v p hp
    unfold dictInsert at hp
    split at hp
    · rcases List.mem_cons.1 hp with hp | hp
      · exact Or.inr hp
      · exact Or.inl (List.mem_cons.2 (Or.inr hp))
    · rcases List.mem_cons.1 hp with hp | hp
      · exact Or.inl (List.mem_cons.2 (Or.inl hp))
      · rcases ih k v p hp with hp' | hp'
        · exact Or.inl (List.mem_cons.2 (Or.inr hp'))
        · exact Or.inr hp'

/-- The excerpt loop never exceeds the global line budget. -/
lemma extractExcerptsGo_sum (lines : List (List Char)) (ctx maxT : Nat) :
    ∀ (codes : List String) (exc : List (String × List String))
      (used : Nat), sumLens exc ≤ used → used ≤ maxT →
      sumLens (extractExcerptsGo lines ctx maxT codes exc used) ≤ maxT := by
  intro codes
  induction codes with
  | nil =>
    intro exc used h1 h2
    unfold extractExcerptsGo
    omega
  | cons code rest ih =>
    intro exc used h1 h2
    unfold extractExcerptsGo
    split
    · exact ih exc used h1 h2
    · rename_i i hhit
      by_cases hrem : maxT - used = 0
      · rw [if_pos hrem]
        omega
      · rw [if_neg hrem]
        have hlen := truncChunk_length_le (windowChunk lines i ctx)
          (maxT - used)
        apply ih
        · calc sumLens (dictInsert exc (upperStr code)
                (truncChunk (windowChunk lines i ctx) (maxT - used)))
              ≤ sumLens exc + (truncChunk (windowChunk lines i ctx)
                  (maxT - used)).length := sumLens_dictInsert _ _ _
            _ ≤ used + (truncChunk (windowChunk lines i ctx)
                  (maxT - used)).length := by omega
        · omega

/-- Structure of the chunks produced by the excerpt loop. -/
lemma extractExcerptsGo_mem (lines : List (List Char)) (ctx maxT : Nat) :
    ∀ (codes : List String) (exc : List (String × List String))
      (used : Nat) (p : String × List String),
      p ∈ extractExcerptsGo lines ctx maxT codes exc used →
      p ∈ exc ∨ ∃ code, code ∈ codes ∧ p.1 = upperStr code ∧
        ∃ i, firstHitIdx lines p.1.toList = some i ∧
          ∃ m, 0 < m ∧ p.2 = (windowChunk lines i ctx).take m := by
  intro codes
  induction codes with
  | nil =>
    intro exc used p hp
    exact Or.inl hp
  | cons code rest ih =>
    intro exc used p hp
    unfold extractExcerptsGo at hp
    split at hp
    · rcases ih exc used p hp with hp' | ⟨c, hc, hrest⟩
      · exact Or.inl hp'
      · exact Or.inr ⟨c, List.mem_cons.2 (Or.inr hc), hrest⟩
    · rename_i i hhit
      by_cases hrem : maxT - used = 0
      · rw [if_pos hrem] at hp
        exact Or.inl hp
      · rw [if_neg hrem] at hp
        rcases ih _ _ p hp with hp' | ⟨c, hc, hrest⟩
        · rcases dictInsert_mem _ _ _ p hp' with hp'' | hp''
          · exact Or.inl hp''
          · refine Or.inr ⟨code, List.mem_cons.2 (Or.inl rfl), ?_, ?_⟩
            · rw [hp'']
            · rw [hp'']
              refine ⟨i, hhit, ?_⟩
              exact truncChunk_eq_take (windowChunk lines i ctx)
                (maxT - used)
                (windowChunk_len_pos lines i ctx
                  (firstHitIdx_lt lines _ i hhit)) hrem
        · exact Or.inr ⟨c, List.mem_cons.2 (Or.inr hc), hrest⟩

/-- The excerpt loop on an empty code list returns its accumulator. -/
lemma extractExcerptsGo_nil (lines : List (List Char)) (ctx maxT : Nat)
    (exc : List (String × List String)) (used : Nat) :
    extractExcerptsGo lines ctx maxT [] exc used = exc := rfl

/-- Step of the excerpt loop on a code with no hit. -/
lemma extractExcerptsGo_cons_none (lines : List (List Char))
    (ctx maxT : Nat) (code : String) (rest : List String)
    (exc : List (String × List String)) (used : Nat)
    (hhit : firstHitIdx lines (upperStr code).toList = none) :
    extractExcerptsGo lines ctx maxT (code :: rest) exc used =
      extractExcerptsGo lines ctx maxT rest exc used := by
  conv_lhs => unfold extractExcerptsGo
  split
  · rfl
  · rename_i j hj
    rw [hhit] at hj
    simp at hj

/-- Step of the excerpt loop on a found code with the budget spent. -/
lemma extractExcerptsGo_cons_break (lines : List (List Char))
    (ctx maxT : Nat) (code : String) (rest : List String)
    (exc : List (String × List String)) (used i : Nat)
    (hhit : firstHitIdx lines (upperStr code).toList = some i)
    (hrem : maxT - used = 0) :
    extractExcerptsGo lines ctx maxT (code :: rest) exc used = exc := by
  unfold extractExcerptsGo
  split
  · rename_i hj
    rw [hhit] at hj
    simp at hj
  · rename_i j hj
    rw [if_pos hrem]

/-- Step of the excerpt loop on a found code with budget remaining. -/
lemma extractExcerptsGo_cons_step (lines : List (List Char))
    (ctx maxT : Nat) (code : String) (rest : List String)
    (exc : List (String × List String)) (used i : Nat)
    (hhit : firstHitIdx lines (upperStr code).toList = some i)
    (hrem : ¬ maxT - used = 0) :
    extractExcerptsGo lines ctx maxT (code :: rest) exc used =
      extractExcerptsGo lines ctx maxT rest
        (dictInsert exc (upperStr code)
          (truncChunk (windowChunk lines i ctx) (maxT - used)))
        (used + (truncChunk (windowChunk lines i ctx)
          (maxT - used)).length) := by
  conv_lhs => unfold extractExcerptsGo
  split
  · rename_i hj
    rw [hhit] at hj
    simp at hj
  · rename_i j hj
    rw [hhit] at hj
    injection hj with hji
    subst hji
    rw [if_neg hrem]

/-- With the budget already spent the excerpt loop adds nothing. -/
lemma extractExcerptsGo_spent (lines : List (List Char)) (ctx maxT : Nat) :
    ∀ (codes : List String) (exc : List (String × List String))
      (used : Nat), maxT ≤ used →
      extractExcerptsGo lines ctx maxT codes exc used = exc := by
  intro codes
  induction codes with
  | nil =>
    intro exc used _
    exact extractExcerptsGo_nil lines ctx maxT exc used
  | cons code rest ih =>
    intro exc used hle
    cases hhit : firstHitIdx lines (upperStr code).toList with
    | none =>
      rw [extractExcerptsGo_cons_none lines ctx maxT code rest exc used hhit]
      exact ih exc used hle
    | some i =>
      exact extractExcerptsGo_cons_break lines ctx maxT code rest exc used i
        hhit (by omega)

/-- `windowNeed` step on a code with no hit. -/
lemma windowNeed_cons_none (lines : List (List Char)) (ctx : Nat)
    (c : String) (rest : List String)
    (hhit : firstHitIdx lines (upperStr c).toList = none) :
    windowNeed lines ctx (c :: rest) = windowNeed lines ctx rest := by
  conv_lhs => unfold windowNeed
  split
  · rename_i j hj
    rw [hhit] at hj
    simp at hj
  · simp

/-- `windowNeed` step on a found code. -/
lemma windowNeed_cons_some (lines : List (List Char)) (ctx : Nat)
    (c : String) (rest : List String) (i : Nat)
    (hhit : firstHitIdx lines (upperStr c).toList = some i) :
    windowNeed lines ctx (c :: rest) =
      (windowChunk lines i ctx).length + windowNeed lines ctx rest := by
  conv_lhs => unfold windowNeed
  split
  · rename_i j hj
    rw [hhit] at hj
    injection hj with hji
    subst hji
    rfl
  · rename_i hj
    rw [hhit] at hj
    simp at hj

/-- A chunk that fits the remaining budget is kept whole. -/
lemma truncChunk_eq_of_le (chunk0 : List String) (remaining : Nat)
    (h : chunk0.length ≤ remaining) :
    truncChunk chunk0 remaining = chunk0 := by
  unfold truncChunk
  rw [if_neg (by omega)]

/-- `dictInsert` puts its key and value in the dict. -/
lemma dictInsert_self_mem (m : List (String × List String)) (k : String)
    (v : List String) : (k, v) ∈ dictInsert m k v := by
  induction m with
  | nil => simp [dictInsert]
  | cons kv t ih =>
    unfold dictInsert
    split
    · exact List.mem_cons.2 (Or.inl rfl)
    · exact List.mem_cons.2 (Or.inr ih)

/-- `dictInsert` with a different key keeps an entry. -/
lemma dictInsert_mem_of_ne :
    ∀ (m : List (String × List String)) (k : String) (v : List String)
      (p : String × List String), p ∈ m → p.1 ≠ k →
      p ∈ dictInsert m k v := by
  intro m
  induction m with
  | nil => intro k v p hp _; simp at hp
  | cons kv t ih =>
    intro k v p hp hne
    unfold dictInsert
    split
    · rename_i heq
      rcases List.mem_cons.1 hp with hp' | hp'
      · exfalso
        apply hne
        rw [hp']
        exact eq_of_beq heq
      · exact List.mem_cons.2 (Or.inr hp')
    · rcases List.mem_cons.1 hp with hp' | hp'
      · exact List.mem_cons.2 (Or.inl hp')
      · exact List.mem_cons.2 (Or.inr (ih k v p hp' hne))

/-- Inserting a fresh key appends the pair at the end. -/
lemma dictInsert_append_of_fresh :
    ∀ (m : List (String × List String)) (k : String) (v : List String),
      (∀ p ∈ m, p.1 ≠ k) → dictInsert m k v = m ++ [(k, v)] := by
  intro m
  induction m with
  | nil => intro k v _; rfl
  | cons kv t ih =>
    intro k v hfresh
    unfold dictInsert
    split
    · rename_i heq
      exact absurd (eq_of_beq heq)
        (hfresh kv (List.mem_cons.2 (Or.inl rfl)))
    · rw [ih k v (fun p hp => hfresh p (List.mem_cons.2 (Or.inr hp)))]
      rfl

/-- `sumLens` over an appended singleton. -/
lemma sumLens_append (m : List (String × List String)) (k : String)
    (v : List String) :
    sumLens (m ++ [(k, v)]) = sumLens m + v.length := by
  simp [sumLens]

/-- When the global budget covers the total window need, the excerpt
loop keeps every canonical entry and emits, for every found code, the
full symmetric window around its first hit. -/
lemma extractExcerptsGo_full (lines : List (List Char)) (ctx maxT : Nat) :
    ∀ (codes : List String) (exc : List (String × List String))
      (used : Nat), used + windowNeed lines ctx codes ≤ maxT →
      (∀ k j, firstHitIdx lines k.toList = some j →
        (k, windowChunk lines j ctx) ∈ exc →
        (k, windowChunk lines j ctx) ∈
          extractExcerptsGo lines ctx maxT codes exc used) ∧
      (∀ c ∈ codes, ∀ j,
        firstHitIdx lines (upperStr c).toList = some j →
        (upperStr c, windowChunk lines j ctx) ∈
          extractExcerptsGo lines ctx maxT codes exc used) := by
  intro codes
  induction codes with
  | nil =>
    intro exc used _
    rw [extractExcerptsGo_nil]
    exact ⟨fun k j _ hk => hk, fun c hc => by simp at hc⟩
  | cons code rest ih =>
    intro exc used hbud
    cases hhit : firstHitIdx lines (upperStr code).toList with
    | none =>
      rw [windowNeed_cons_none lines ctx code rest hhit] at hbud
      rw [extractExcerptsGo_cons_none lines ctx maxT code rest exc used hhit]
      rcases ih exc used hbud with ⟨ha, hb⟩
      refine ⟨ha, ?_⟩
      intro c hc j hcj
      rcases List.mem_cons.1 hc with hceq | hcr
      · rw [hceq] at hcj
        rw [hhit] at hcj
        simp at hcj
      · exact hb c hcr j hcj
    | some i =>
      have hipos : i < lines.length := firstHitIdx_lt lines _ i hhit
      have hwpos : 0 < (windowChunk lines i ctx).length :=
        windowChunk_len_pos lines i ctx hipos
      rw [windowNeed_cons_some lines ctx code rest i hhit] at hbud
      have hrem : ¬ maxT - used = 0 := by omega
      have hfit : (windowChunk lines i ctx).length ≤ maxT - used := by
        omega
      rw [extractExcerptsGo_cons_step lines ctx maxT code rest exc used i
        hhit hrem]
      rw [truncChunk_eq_of_le (windowChunk lines i ctx) (maxT - used) hfit]
      have hbud2 : (used + (windowChunk lines i ctx).length) +
          windowNeed lines ctx rest ≤ maxT := by omega
      rcases ih (dictInsert exc (upperStr code) (windowChunk lines i ctx))
        (used + (windowChunk lines i ctx).length) hbud2 with ⟨ha, hb⟩
      refine ⟨?_, ?_⟩
      · intro k j hkj hkexc
        apply ha k j hkj
        by_cases hkc : k = upperStr code
        · subst hkc
          rw [hhit] at hkj
          injection hkj with hji
          subst hji
          exact dictInsert_self_mem exc (upperStr code)
            (windowChunk lines i ctx)
        · exact dictInsert_mem_of_ne exc (upperStr code)
            (windowChunk lines i ctx) (k, windowChunk lines j ctx)
            hkexc hkc
      · intro c hc j hcj
        rcases List.mem_cons.1 hc with hceq | hcr
        · rw [hceq] at hcj ⊢
          rw [hhit] at hcj
          injection hcj with hji
          subst hji
          apply ha (upperStr code) i hhit
          exact dictInsert_self_mem exc (upperStr code)
            (windowChunk lines i ctx)
        · exact hb c hcr j hcj

/-- With pairwise-distinct upper-cased codes, a returned total strictly
below the budget means no break or truncation occurred: every
accumulated entry survives and every found code is emitted with its
full symmetric window. -/
lemma extractExcerptsGo_lt (lines : List (List Char)) (ctx maxT : Nat) :
    ∀ (codes : List String) (exc : List (String × List String))
      (used : Nat),
      codes.Pairwise (fun a b => upperStr a ≠ upperStr b) →
      (∀ c ∈ codes, ∀ p ∈ exc, p.1 ≠ upperStr c) →
      sumLens exc = used → used ≤ maxT →
      sumLens (extractExcerptsGo lines ctx maxT codes exc used) < maxT →
      (∀ p ∈ exc, p ∈ extractExcerptsGo lines ctx maxT codes exc used) ∧
      (∀ c ∈ codes, ∀ j,
        firstHitIdx lines (upperStr c).toList = some j →
        (upperStr c, windowChunk lines j ctx) ∈
          extractExcerptsGo lines ctx maxT codes exc used) := by
  intro codes
  induction codes with
  | nil =>
    intro exc used _ _ _ _ _
    rw [extractExcerptsGo_nil]
    exact ⟨fun p hp => hp, fun c hc => by simp at hc⟩
  | cons code rest ih =>
    intro exc used hpw hfresh hsum hle hlt
    rcases List.pairwise_cons.1 hpw with ⟨hhead, htail⟩
    have hfreshtail : ∀ c ∈ rest, ∀ p ∈ exc, p.1 ≠ upperStr c :=
      fun c hc p hp => hfresh c (List.mem_cons.2 (Or.inr hc)) p hp
    cases hhit : firstHitIdx lines (upperStr code).toList with
    | none =>
      rw [extractExcerptsGo_cons_none lines ctx maxT code rest exc used hhit]
        at hlt ⊢
      rcases ih exc used htail hfreshtail hsum hle hlt with ⟨ha, hb⟩
      refine ⟨ha, ?_⟩
      intro c hc j hcj
      rcases List.mem_cons.1 hc with hceq | hcr
      · rw [hceq] at hcj
        rw [hhit] at hcj
        simp at hcj
      · exact hb c hcr j hcj
    | some i =>
      by_cases hrem : maxT - used = 0
      · exfalso
        rw [extractExcerptsGo_cons_break lines ctx maxT code rest exc used i
          hhit hrem] at hlt
        omega
      · rw [extractExcerptsGo_cons_step lines ctx maxT code rest exc used i
          hhit hrem] at hlt ⊢
        have hfreshcode : ∀ p ∈ exc, p.1 ≠ upperStr code :=
          fun p hp => hfresh code (List.mem_cons.2 (Or.inl rfl)) p hp
        rw [dictInsert_append_of_fresh exc (upperStr code)
          (truncChunk (windowChunk lines i ctx) (maxT - used)) hfreshcode]
          at hlt ⊢
        by_cases htrunc : (windowChunk lines i ctx).length ≤ maxT - used
        · rw [truncChunk_eq_of_le (windowChunk lines i ctx) (maxT - used)
            htrunc] at hlt ⊢
          have hsum' : sumLens (exc ++
              [(upperStr code, windowChunk lines i ctx)]) =
              used + (windowChunk lines i ctx).length := by
            rw [sumLens_append]
            omega
          have hle' : used + (windowChunk lines i ctx).length ≤ maxT := by
            omega
          have hfresh' : ∀ c ∈ rest, ∀ p ∈ exc ++
              [(upperStr code, windowChunk lines i ctx)],
              p.1 ≠ upperStr c := by
            intro c hc p hp
            rcases List.mem_append.1 hp with hp' | hp'
            · exact hfreshtail c hc p hp'
            · rw [List.mem_singleton.1 hp']
              exact hhead c hc
          rcases ih (exc ++ [(upperStr code, windowChunk lines i ctx)])
            (used + (windowChunk lines i ctx).length) htail hfresh' hsum'
            hle' hlt with ⟨ha, hb⟩
          refine ⟨?_, ?_⟩
          · intro p hp
            exact ha p (List.mem_append.2 (Or.inl hp))
          · intro c hc j hcj
            rcases List.mem_cons.1 hc with hceq | hcr
            · rw [hceq] at hcj ⊢
              rw [hhit] at hcj
              injection hcj with hji
              subst hji
              exact ha (upperStr code, windowChunk lines i ctx)
                (List.mem_append.2 (Or.inr (List.mem_singleton.2 rfl)))
            · exact hb c hcr j hcj
        · exfalso
          have hlen : (truncChunk (windowChunk lines i ctx)
              (maxT - used)).length = maxT - used := by
            unfold truncChunk
            rw [if_pos (by omega)]
            rw [List.length_take]
            omega
          rw [hlen] at hlt
          rw [extractExcerptsGo_spent lines ctx maxT rest
            (exc ++ [(upperStr code,
              truncChunk (windowChunk lines i ctx) (maxT - used))])
            (used + (maxT - used)) (by omega)] at hlt
          rw [sumLens_append, hlen] at hlt
          omega

/-- C8: the excerpt extractor stays within the global line budget; every
returned chunk belongs to an upper-cased requested code and is a
non-empty prefix of the symmetric window around the first line
containing that code; codes not found in the text produce no chunk and
no error; when the budget covers the total window need of the requested
codes, every found code is emitted with its full symmetric window; and
for pairwise-distinct upper-cased codes, whenever the returned total is
strictly below the budget, every found code is emitted with its full
symmetric window — a found code is skipped or truncated only on
exhaustion of the budget. -/
theorem extractExcerpts_spec (t : String) (codes : List String)
    (ctx maxT : Nat) :
    sumLens (extractExcerpts t codes ctx maxT) ≤ maxT ∧
    (∀ p ∈ extractExcerpts t codes ctx maxT,
      (∃ code, code ∈ codes ∧ p.1 = upperStr code) ∧
      ∃ i, firstHitIdx (splitlinesAux [] t.toList) p.1.toList = some i ∧
        ∃ m, 0 < m ∧
          p.2 = (windowChunk (splitlinesAux [] t.toList) i ctx).take m) ∧
    (∀ k ch, firstHitIdx (splitlinesAux [] t.toList) k.toList = none →
      (k, ch) ∉ extractExcerpts t codes ctx maxT) ∧
    (windowNeed (splitlinesAux [] t.toList) ctx codes ≤ maxT →
      ∀ c ∈ codes, ∀ i,
        firstHitIdx (splitlinesAux [] t.toList) (upperStr c).toList =
          some i →
        (upperStr c, windowChunk (splitlinesAux [] t.toList) i ctx) ∈
          extractExcerpts t codes ctx maxT) ∧
    (codes.Pairwise (fun a b => upperStr a ≠ upperStr b) →
      sumLens (extractExcerpts t codes ctx maxT) < maxT →
      ∀ c ∈ codes, ∀ i,
        firstHitIdx (splitlinesAux [] t.toList) (upperStr c).toList =
          some i →
        (upperStr c, windowChunk (splitlinesAux [] t.toList) i ctx) ∈
          extractExcerpts t codes ctx maxT) := by
  by_cases hguard : t = "" || codes.isEmpty
  · have hr : extractExcerpts t codes ctx maxT = [] := by
      unfold extractExcerpts
      rw [if_pos hguard]
    have hcases : t = "" ∨ codes = [] := by
      have h := hguard
      simp only [Bool.or_eq_true, decide_eq_true_eq,
        List.isEmpty_iff] at h
      exact h
    rw [hr]
    refine ⟨by simp [sumLens], by simp, by simp, ?_, ?_⟩
    · intro _ c hc i hci
      rcases hcases with ht | hcodes
      · rw [ht] at hci
        have h0 : firstHitIdx (splitlinesAux [] ("" : String).toList)
            (upperStr c).toList = none := rfl
        rw [h0] at hci
        simp at hci
      · rw [hcodes] at hc
        simp at hc
    · intro _ _ c hc i hci
      rcases hcases with ht | hcodes
      · rw [ht] at hci
        have h0 : firstHitIdx (splitlinesAux [] ("" : String).toList)
            (upperStr c).toList = none := rfl
        rw [h0] at hci
        simp at hci
      · rw [hcodes] at hc
        simp at hc
  · have hr : extractExcerpts t codes ctx maxT =
        extractExcerptsGo (splitlinesAux [] t.toList) ctx maxT
          codes [] 0 := by
      unfold extractExcerpts
      rw [if_neg hguard]
    rw [hr]
    refine ⟨?_, ?_, ?_, ?_, ?_⟩
    · exact extractExcerptsGo_sum _ ctx maxT codes [] 0
        (by simp [sumLens]) (by omega)
    · intro p hp
      rcases extractExcerptsGo_mem _ ctx maxT codes [] 0 p hp
        with hp' | ⟨c, hc, hname, hrest⟩
      · simp at hp'
      · exact ⟨⟨c, hc, hname⟩, hrest⟩
    · intro k ch hnone hp
      rcases extractExcerptsGo_mem _ ctx maxT codes [] 0 (k, ch) hp
        with hp' | ⟨c, _, _, i, hi, _⟩
      · simp at hp'
      · rw [hnone] at hi
        exact absurd hi (by simp)
    · intro hneed c hc i hci
      exact (extractExcerptsGo_full (splitlinesAux [] t.toList) ctx maxT
        codes [] 0 (by omega)).2 c hc i hci
    · intro hpw hlt c hc i hci
      exact (extractExcerptsGo_lt (splitlinesAux [] t.toList) ctx maxT
        codes [] 0 hpw (by simp) (by simp [sumLens]) (by omega) hlt).2
        c hc i hci

/-- Concrete run of the excerpt extractor: both codes are found, the
first is emitted with its full four-line window, the second is
truncated to the two lines left in the budget. -/
theorem extractExcerpts_concrete :
    extractExcerpts "l0\nl1 ORA-39000 x\nl2\nl3\nl4 ora-31640\nl5"
        ["ORA-39000", "ORA-31640"] 2 6 =
      [("ORA-39000", ["l0", "l1 ORA-39000 x", "l2", "l3"]),
       ("ORA-31640", ["l2", "l3"])] := by rfl

/-- `prevOf` with no initial predecessor is the last of the prefix. -/
lemma prevOf_none (pre : List Char) : prevOf none pre = pre.getLast? := by
  unfold prevOf
  cases h : pre.getLast? <;> rfl

/-- Extending the consumed prefix by its head shifts the base
predecessor. -/
lemma prevOf_cons (prev : Option Char) (c : Char) (pre : List Char) :
    prevOf prev (c :: pre) = prevOf (some c) pre := by
  cases pre with
  | nil => rfl
  | cons c2 pre' =>
    unfold prevOf
    rw [List.getLast?_cons_cons]
    cases h : (c2 :: pre').getLast? with
    | some d => rfl
    | none =>
      exfalso
      rw [List.getLast?_eq_none_iff] at h
      exact absurd h (by simp)

/-- A search succeeds exactly when the pattern matches at some split of
the input, with the correct preceding character. -/
lemma searchFrom_isSome_iff {α : Type} (f : Option Char → List Char → Option α) :
    ∀ (cs : List Char) (prev : Option Char),
      (searchFrom f prev cs).isSome = true ↔
        ∃ pre post, cs = pre ++ post ∧
          (f (prevOf prev pre) post).isSome = true := by
  intro cs
  induction cs with
  | nil =>
    intro prev
    constructor
    · intro h
      exact ⟨[], [], rfl, h⟩
    · rintro ⟨pre, post, hsplit, hsome⟩
      obtain ⟨hpre, hpost⟩ := List.append_eq_nil.1 hsplit.symm
      subst hpre
      subst hpost
      exact hsome
  | cons c cs ih =>
    intro prev
    constructor
    · intro h
      unfold searchFrom at h
      cases hf : f prev (c :: cs) with
      | some a => exact ⟨[], c :: cs, rfl, by simp [prevOf, hf]⟩
      | none =>
        rw [hf] at h
        obtain ⟨pre, post, hsplit, hsome⟩ := (ih (some c)).1 h
        refine ⟨c :: pre, post, by simp [hsplit], ?_⟩
        rwa [prevOf_cons]
    · rintro ⟨pre, post, hsplit, hsome⟩
      unfold searchFrom
      cases hf : f prev (c :: cs) with
      | some a => simp
      | none =>
        cases pre with
        | nil =>
          simp at hsplit
          rw [← hsplit] at hsome
          have : prevOf prev ([] : List Char) = prev := rfl
          rw [this] at hsome
          rw [hf] at hsome
          simp at hsome
        | cons c' pre' =>
          have hc : c = c' ∧ cs = pre' ++ post := by
            have := hsplit
            simp at this
            exact this
          apply (ih (some c)).2
          refine ⟨pre', post, hc.2, ?_⟩
          rw [← prevOf_cons prev c pre']
          rw [hc.1]
          exact hsome

/-- The value returned by a successful search comes from a match at
some split of the input. -/
lemma searchFrom_eq_some {α : Type} (f : Option Char → List Char → Option α) :
    ∀ (cs : List Char) (prev : Option Char) (a : α),
      searchFrom f prev cs = some a →
      ∃ pre post, cs = pre ++ post ∧ f (prevOf prev pre) post = some a := by
  intro cs
  induction cs with
  | nil =>
    intro prev a h
    exact ⟨[], [], rfl, h⟩
  | cons c cs ih =>
    intro prev a h
    unfold searchFrom at h
    cases hf : f prev (c :: cs) with
    | some b =>
      rw [hf] at h
      injection h with h
      subst h
      exact ⟨[], c :: cs, rfl, hf⟩
    | none =>
      rw [hf] at h
      obtain ⟨pre, post, hsplit, hval⟩ := ih (some c) a h
      refine ⟨c :: pre, post, by simp [hsplit], ?_⟩
      rwa [prevOf_cons]

/-- A case-insensitive literal match is exactly a split whose left part
spells the pattern in lower case. -/
lemma matchCI_eq_some_iff :
    ∀ (p cs rest : List Char),
      matchCI p cs = some rest ↔
        ∃ mid, cs = mid ++ rest ∧ mid.map Char.toLower = p := by
  intro p
  induction p with
  | nil =>
    intro cs rest
    constructor
    · intro h
      injection h with h
      exact ⟨[], by simp [h], rfl⟩
    · rintro ⟨mid, hsplit, hmap⟩
      have hmid : mid = [] := List.map_eq_nil_iff.1 hmap
      subst hmid
      simp at hsplit
      subst hsplit
      rfl
  | cons pc ptl ih =>
    intro cs rest
    cases cs with
    | nil =>
      constructor
      · intro h
        exact absurd h (by simp [matchCI])
      · rintro ⟨mid, hsplit, hmap⟩
        cases mid with
        | nil => simp at hmap
        | cons m mtl => simp at hsplit
    | cons c ctl =>
      show (if c.toLower == pc then matchCI ptl ctl else none) = some rest ↔ _
      by_cases hc : c.toLower == pc
      · rw [if_pos hc]
        constructor
        · intro h
          obtain ⟨mid, hsplit, hmap⟩ := (ih ctl rest).1 h
          refine ⟨c :: mid, by simp [hsplit], ?_⟩
          simp [hmap]
          exact beq_iff_eq.1 hc
        · rintro ⟨mid, hsplit, hmap⟩
          cases mid with
          | nil => simp at hmap
          | cons m mtl =>
            simp at hsplit hmap
            exact (ih ctl rest).2 ⟨mtl, hsplit.2, hmap.2⟩
      · rw [if_neg hc]
        constructor
        · intro h
          simp at h
        · rintro ⟨mid, hsplit, hmap⟩
          cases mid with
          | nil => simp at hmap
          | cons m mtl =>
            simp at hsplit hmap
            exfalso
            apply hc
            rw [beq_iff_eq, hsplit.1]
            exact hmap.1

/-- A `\s+` match is exactly a split into a non-empty all-whitespace
run (maximal: the remainder does not start with whitespace). -/
lemma matchWs1_eq_some_iff (cs rest : List Char) :
    matchWs1 cs = some rest ↔
      ∃ w, cs = w ++ rest ∧ w ≠ [] ∧ (∀ c ∈ w, c.isWhitespace = true) ∧
        (∀ c, rest.head? = some c → c.isWhitespace = false) := by
  constructor
  · intro h
    cases cs with
    | nil => simp [matchWs1] at h
    | cons c ctl =>
      have h' : (if c.isWhitespace = true then
          some (ctl.dropWhile Char.isWhitespace) else none) = some rest := h
      by_cases hc : c.isWhitespace = true
      · rw [if_pos hc] at h'
        injection h' with h
        refine ⟨c :: ctl.takeWhile Char.isWhitespace, ?_, by simp, ?_, ?_⟩
        · rw [← h]
          simp [List.takeWhile_append_dropWhile]
        · intro x hx
          rcases List.mem_cons.1 hx with hx | hx
          · exact hx ▸ hc
          · exact mem_takeWhile_pred _ x hx
        · intro x hx
          rw [← h] at hx
          exact head?_dropWhile_not ctl x hx
      · rw [if_neg hc] at h'
        simp at h'
  · rintro ⟨w, hsplit, hne, hws, hrest⟩
    cases w with
    | nil => exact absurd rfl hne
    | cons wc wtl =>
      have hcs : cs = wc :: (wtl ++ rest) := by simpa using hsplit
      subst hcs
      show (if wc.isWhitespace = true then
        some ((wtl ++ rest).dropWhile Char.isWhitespace) else none) = some rest
      rw [if_pos (hws wc (by simp))]
      have := (takeWhile_dropWhile_of_split wtl rest
        (fun c hc => hws c (by simp [hc])) hrest).2
      rw [this]

/-- A `(\d+)` match is exactly a split into a non-empty maximal digit
run and the remainder. -/
lemma matchDigits1_eq_some_iff (cs ds rest : List Char) :
    matchDigits1 cs = some (ds, rest) ↔
      ds ≠ [] ∧ (∀ c ∈ ds, c.isDigit = true) ∧ cs = ds ++ rest ∧
        (∀ c, rest.head? = some c → c.isDigit = false) := by
  constructor
  · intro h
    cases cs with
    | nil => simp [matchDigits1] at h
    | cons c ctl =>
      have h' : (if c.isDigit = true then
          some (c :: ctl.takeWhile Char.isDigit, ctl.dropWhile Char.isDigit)
        else none) = some (ds, rest) := h
      by_cases hc : c.isDigit = true
      · rw [if_pos hc] at h'
        injection h' with h
        have hds : ds = c :: ctl.takeWhile Char.isDigit := by
          have := congrArg Prod.fst h
          simpa using this.symm
        have hrest : rest = ctl.dropWhile Char.isDigit := by
          have := congrArg Prod.snd h
          simpa using this.symm
        subst hds
        subst hrest
        refine ⟨by simp, ?_, ?_, ?_⟩
        · intro x hx
          rcases List.mem_cons.1 hx with hx | hx
          · exact hx ▸ hc
          · exact mem_takeWhile_pred _ x hx
        · simp [List.takeWhile_append_dropWhile]
        · intro x hx
          exact head?_dropWhile_not ctl x hx
      · rw [if_neg hc] at h'
        simp at h'
  · rintro ⟨hne, hds, hsplit, hrest⟩
    cases ds with
    | nil => exact absurd rfl hne
    | cons dc dtl =>
      have hcs : cs = dc :: (dtl ++ rest) := by simpa using hsplit
      subst hcs
      show (if dc.isDigit = true then
        (some (dc :: (dtl ++ rest).takeWhile Char.isDigit,
          (dtl ++ rest).dropWhile Char.isDigit) :
            Option (List Char × List Char))
        else none) = some (dc :: dtl, rest)
      rw [if_pos (hds dc (by simp))]
      have hs := takeWhile_dropWhile_of_split dtl rest
        (fun c hc => hds c (by simp [hc])) hrest
      rw [hs.1, hs.2]

/-- `toLower` fixes whitespace characters. -/
lemma ws_toLower_self {c : Char} (h : c.isWhitespace = true) :
    c.toLower = c := by
  simp [Char.isWhitespace] at h
  have hc : c = ' ' ∨ c = '\t' ∨ c = '\x0d' ∨ c = '\n' := by tauto
  rcases hc with h1 | h1 | h1 | h1 <;> subst h1 <;> decide

/-- A literal whose lower-case spelling starts with a non-whitespace
character does not start with whitespace. -/
lemma lowerEq_head_not_ws {lit : List Char} {pat : String}
    (hmap : lit.map Char.toLower = pat.toList) {p0 : Char}
    (hp : pat.toList.head? = some p0) (hnw : p0.isWhitespace = false) :
    ∀ c, lit.head? = some c → c.isWhitespace = false := by
  intro c hc
  cases lit with
  | nil => simp at hc
  | cons a t =>
    simp at hc
    subst hc
    have hhead : a.toLower = p0 := by
      rw [← hmap] at hp
      simpa using hp
    cases hw : a.isWhitespace
    · rfl
    · exfalso
      have hself := ws_toLower_self hw
      rw [hself] at hhead
      subst hhead
      rw [hw] at hnw
      exact absurd hnw (by simp)

/-- `\bsuccessfully completed\b` succeeds at a position exactly when
both boundaries hold around a case-insensitive spelling. -/
lemma trySuccessAt_isSome_iff (prev : Option Char) (cs : List Char) :
    (trySuccessAt prev cs).isSome = true ↔
      boundaryBefore prev = true ∧ ∃ mid rest, cs = mid ++ rest ∧
        LowerEq mid "successfully completed" ∧ boundaryAt rest = true := by
  unfold trySuccessAt
  by_cases hb : boundaryBefore prev = true
  · rw [if_pos hb]
    constructor
    · intro h
      rw [Option.isSome_iff_exists] at h
      obtain ⟨u, hu⟩ := h
      rw [Option.bind_eq_some] at hu
      obtain ⟨rest, hm, hif⟩ := hu
      split at hif
      · rename_i hba
        obtain ⟨mid, hsplit, hmap⟩ := (matchCI_eq_some_iff _ _ _).1 hm
        exact ⟨hb, mid, rest, hsplit, hmap, hba⟩
      · simp at hif
    · rintro ⟨-, mid, rest, hsplit, hmap, hba⟩
      have hm := (matchCI_eq_some_iff
        "successfully completed".toList cs rest).2 ⟨mid, hsplit, hmap⟩
      rw [Option.isSome_iff_exists]
      refine ⟨(), ?_⟩
      rw [Option.bind_eq_some]
      exact ⟨rest, hm, by rw [if_pos hba]⟩
  · rw [if_neg hb]
    constructor
    · intro h
      simp at h
    · rintro ⟨hb', -⟩
      exact absurd hb' hb

/-- `\bcompleted\b` succeeds at a position exactly when both boundaries
hold around a case-insensitive spelling. -/
lemma tryCompletedAt_isSome_iff (prev : Option Char) (cs : List Char) :
    (tryCompletedAt prev cs).isSome = true ↔
      boundaryBefore prev = true ∧ ∃ mid rest, cs = mid ++ rest ∧
        LowerEq mid "completed" ∧ boundaryAt rest = true := by
  unfold tryCompletedAt
  by_cases hb : boundaryBefore prev = true
  · rw [if_pos hb]
    constructor
    · intro h
      rw [Option.isSome_iff_exists] at h
      obtain ⟨u, hu⟩ := h
      rw [Option.bind_eq_some] at hu
      obtain ⟨rest, hm, hif⟩ := hu
      split at hif
      · rename_i hba
        obtain ⟨mid, hsplit, hmap⟩ := (matchCI_eq_some_iff _ _ _).1 hm
        exact ⟨hb, mid, rest, hsplit, hmap, hba⟩
      · simp at hif
    · rintro ⟨-, mid, rest, hsplit, hmap, hba⟩
      have hm := (matchCI_eq_some_iff
        "completed".toList cs rest).2 ⟨mid, hsplit, hmap⟩
      rw [Option.isSome_iff_exists]
      refine ⟨(), ?_⟩
      rw [Option.bind_eq_some]
      exact ⟨rest, hm, by rw [if_pos hba]⟩
  · rw [if_neg hb]
    constructor
    · intro h
      simp at h
    · rintro ⟨hb', -⟩
      exact absurd hb' hb

/-- `\bcompleted with\s+(\d+)\s+error` succeeds at a position with
value `n` exactly on the canonical literal/whitespace/digit split. -/
lemma tryCWErrAt_eq_some_iff (prev : Option Char) (cs : List Char)
    (n : Nat) :
    tryCWErrAt prev cs = some n ↔
      boundaryBefore prev = true ∧
      ∃ lit1 w1 ds w2 lit2 rest,
        cs = lit1 ++ w1 ++ ds ++ w2 ++ lit2 ++ rest ∧
        LowerEq lit1 "completed with" ∧
        w1 ≠ [] ∧ (∀ c ∈ w1, c.isWhitespace = true) ∧
        ds ≠ [] ∧ (∀ c ∈ ds, c.isDigit = true) ∧
        w2 ≠ [] ∧ (∀ c ∈ w2, c.isWhitespace = true) ∧
        LowerEq lit2 "error" ∧ n = digitsToNat ds := by
  unfold tryCWErrAt
  by_cases hb : boundaryBefore prev = true
  · rw [if_pos hb]
    constructor
    · intro h
      rw [Option.bind_eq_some] at h
      obtain ⟨r1, hm1, h⟩ := h
      rw [Option.bind_eq_some] at h
      obtain ⟨r2, hm2, h⟩ := h
      rw [Option.bind_eq_some] at h
      obtain ⟨⟨ds, r3⟩, hm3, h⟩ := h
      rw [Option.bind_eq_some] at h
      obtain ⟨r4, hm4, h⟩ := h
      rw [Option.map_eq_some'] at h
      obtain ⟨rest, hm5, hval⟩ := h
      obtain ⟨lit1, hs1, hmap1⟩ := (matchCI_eq_some_iff _ _ _).1 hm1
      obtain ⟨w1, hs2, hw1ne, hw1, -⟩ := (matchWs1_eq_some_iff _ _).1 hm2
      obtain ⟨hdsne, hds, hs3, -⟩ := (matchDigits1_eq_some_iff _ _ _).1 hm3
      obtain ⟨w2, hs4, hw2ne, hw2, -⟩ := (matchWs1_eq_some_iff _ _).1 hm4
      obtain ⟨lit2, hs5, hmap5⟩ := (matchCI_eq_some_iff _ _ _).1 hm5
      have hs4' : r3 = w2 ++ r4 := hs4
      have hval' : digitsToNat ds = n := hval
      refine ⟨hb, lit1, w1, ds, w2, lit2, rest, ?_, hmap1, hw1ne, hw1,
        hdsne, hds, hw2ne, hw2, hmap5, hval'.symm⟩
      rw [hs1, hs2, hs3, hs4', hs5]
      simp [List.append_assoc]
    · rintro ⟨-, lit1, w1, ds, w2, lit2, rest, hsplit, hmap1, hw1ne, hw1,
        hdsne, hds, hw2ne, hw2, hmap5, hval⟩
      have hm1 : matchCI "completed with".toList cs =
          some (w1 ++ ds ++ w2 ++ lit2 ++ rest) := by
        apply (matchCI_eq_some_iff _ _ _).2
        refine ⟨lit1, ?_, hmap1⟩
        rw [hsplit]
        simp [List.append_assoc]
      have hm2 : matchWs1 (w1 ++ ds ++ w2 ++ lit2 ++ rest) =
          some (ds ++ w2 ++ lit2 ++ rest) := by
        apply (matchWs1_eq_some_iff _ _).2
        refine ⟨w1, by simp [List.append_assoc], hw1ne, hw1, ?_⟩
        intro c hc
        cases ds with
        | nil => exact absurd rfl hdsne
        | cons d dt =>
          simp at hc
          exact hc ▸ isDigit_not_ws (hds d (by simp))
      have hm3 : matchDigits1 (ds ++ w2 ++ lit2 ++ rest) =
          some (ds, w2 ++ lit2 ++ rest) := by
        apply (matchDigits1_eq_some_iff _ _ _).2
        refine ⟨hdsne, hds, by simp [List.append_assoc], ?_⟩
        intro c hc
        cases w2 with
        | nil => exact absurd rfl hw2ne
        | cons x xt =>
          simp at hc
          exact hc ▸ isWs_not_digit (hw2 x (by simp))
      have hm4 : matchWs1 (w2 ++ lit2 ++ rest) = some (lit2 ++ rest) := by
        apply (matchWs1_eq_some_iff _ _).2
        refine ⟨w2, by simp [List.append_assoc], hw2ne, hw2, ?_⟩
        intro c hc
        cases lit2 with
        | nil => simp [LowerEq] at hmap5
        | cons x xt =>
          simp at hc
          subst hc
          exact lowerEq_head_not_ws hmap5 (by rfl) (by decide) x rfl
      have hm5 : matchCI "error".toList (lit2 ++ rest) = some rest :=
        (matchCI_eq_some_iff _ _ _).2 ⟨lit2, rfl, hmap5⟩
      rw [Option.bind_eq_some]
      refine ⟨w1 ++ ds ++ w2 ++ lit2 ++ rest, hm1, ?_⟩
      rw [Option.bind_eq_some]
      refine ⟨ds ++ w2 ++ lit2 ++ rest, hm2, ?_⟩
      rw [Option.bind_eq_some]
      refine ⟨(ds, w2 ++ lit2 ++ rest), hm3, ?_⟩
      rw [Option.bind_eq_some]
      refine ⟨lit2 ++ rest, hm4, ?_⟩
      rw [Option.map_eq_some']
      exact ⟨rest, hm5, hval.symm⟩
  · rw [if_neg hb]
    constructor
    · intro h
      simp at h
    · rintro ⟨hb', -⟩
      exact absurd hb' hb

/-- `\bcompleted with\s+error` succeeds at a position exactly on the
canonical literal/whitespace split. -/
lemma tryCWErr2At_isSome_iff (prev : Option Char) (cs : List Char) :
    (tryCWErr2At prev cs).isSome = true ↔
      boundaryBefore prev = true ∧
      ∃ lit1 w1 lit2 rest,
        cs = lit1 ++ w1 ++ lit2 ++ rest ∧
        LowerEq lit1 "completed with" ∧
        w1 ≠ [] ∧ (∀ c ∈ w1, c.isWhitespace = true) ∧
        LowerEq lit2 "error" := by
  unfold tryCWErr2At
  by_cases hb : boundaryBefore prev = true
  · rw [if_pos hb]
    constructor
    · intro h
      rw [Option.isSome_iff_exists] at h
      obtain ⟨u, hu⟩ := h
      rw [Option.bind_eq_some] at hu
      obtain ⟨r1, hm1, hu⟩ := hu
      rw [Option.bind_eq_some] at hu
      obtain ⟨r2, hm2, hu⟩ := hu
      rw [Option.map_eq_some'] at hu
      obtain ⟨rest, hm3, -⟩ := hu
      obtain ⟨lit1, hs1, hmap1⟩ := (matchCI_eq_some_iff _ _ _).1 hm1
      obtain ⟨w1, hs2, hw1ne, hw1, -⟩ := (matchWs1_eq_some_iff _ _).1 hm2
      obtain ⟨lit2, hs3, hmap3⟩ := (matchCI_eq_some_iff _ _ _).1 hm3
      refine ⟨hb, lit1, w1, lit2, rest, ?_, hmap1, hw1ne, hw1, hmap3⟩
      rw [hs1, hs2, hs3]
      simp [List.append_assoc]
    · rintro ⟨-, lit1, w1, lit2, rest, hsplit, hmap1, hw1ne, hw1, hmap3⟩
      have hm1 : matchCI "completed with".toList cs =
          some (w1 ++ lit2 ++ rest) := by
        apply (matchCI_eq_some_iff _ _ _).2
        refine ⟨lit1, ?_, hmap1⟩
        rw [hsplit]
        simp [List.append_assoc]
      have hm2 : matchWs1 (w1 ++ lit2 ++ rest) = some (lit2 ++ rest) := by
        apply (matchWs1_eq_some_iff _ _).2
        refine ⟨w1, by simp [List.append_assoc], hw1ne, hw1, ?_⟩
        intro c hc
        cases lit2 with
        | nil => simp [LowerEq] at hmap3
        | cons x xt =>
          simp at hc
          subst hc
          exact lowerEq_head_not_ws hmap3 (by rfl) (by decide) x rfl
      have hm3 : matchCI "error".toList (lit2 ++ rest) = some rest :=
        (matchCI_eq_some_iff _ _ _).2 ⟨lit2, rfl, hmap3⟩
      rw [Option.isSome_iff_exists]
      refine ⟨(), ?_⟩
      rw [Option.bind_eq_some]
      refine ⟨w1 ++ lit2 ++ rest, hm1, ?_⟩
      rw [Option.bind_eq_some]
      refine ⟨lit2 ++ rest, hm2, ?_⟩
      rw [Option.map_eq_some']
      exact ⟨rest, hm3, rfl⟩
  · rw [if_neg hb]
    constructor
    · intro h
      simp at h
    · rintro ⟨hb', -⟩
      exact absurd hb' hb

/-- The success-phrase search agrees with the declarative predicate. -/
lemma dpSuccessSearch_iff (t : String) :
    dpSuccessSearch t = true ↔ ContainsSuccessPhrase t := by
  unfold dpSuccessSearch ContainsSuccessPhrase
  rw [searchFrom_isSome_iff]
  constructor
  · rintro ⟨pre, post, hsplit, hsome⟩
    obtain ⟨hb, mid, rest, hsplit2, hmap, hba⟩ :=
      (trySuccessAt_isSome_iff _ _).1 hsome
    refine ⟨pre, mid, rest, ?_, hmap, ?_, hba⟩
    · rw [hsplit, hsplit2]
      simp [List.append_assoc]
    · rwa [prevOf_none] at hb
  · rintro ⟨pre, mid, post, hsplit, hmap, hb, hba⟩
    refine ⟨pre, mid ++ post, ?_, ?_⟩
    · rw [hsplit]
      simp [List.append_assoc]
    · apply (trySuccessAt_isSome_iff _ _).2
      exact ⟨by rwa [prevOf_none], mid, post, rfl, hmap, hba⟩

/-- The bare-completed search agrees with the declarative predicate. -/
lemma dpCompletedSearch_iff (t : String) :
    dpCompletedSearch t = true ↔ ContainsCompletedPhrase t := by
  unfold dpCompletedSearch ContainsCompletedPhrase
  rw [searchFrom_isSome_iff]
  constructor
  · rintro ⟨pre, post, hsplit, hsome⟩
    obtain ⟨hb, mid, rest, hsplit2, hmap, hba⟩ :=
      (tryCompletedAt_isSome_iff _ _).1 hsome
    refine ⟨pre, mid, rest, ?_, hmap, ?_, hba⟩
    · rw [hsplit, hsplit2]
      simp [List.append_assoc]
    · rwa [prevOf_none] at hb
  · rintro ⟨pre, mid, post, hsplit, hmap, hb, hba⟩
    refine ⟨pre, mid ++ post, ?_, ?_⟩
    · rw [hsplit]
      simp [List.append_assoc]
    · apply (tryCompletedAt_isSome_iff _ _).2
      exact ⟨by rwa [prevOf_none], mid, post, rfl, hmap, hba⟩

/-- The value returned by the counted-errors search satisfies the
declarative predicate. -/
lemma dpCWErrSearch_eq_some_phrase (t : String) (n : Nat)
    (h : dpCWErrSearch t = some n) : ContainsCWErrPhrase t n := by
  unfold dpCWErrSearch at h
  obtain ⟨pre, post, hsplit, hval⟩ := searchFrom_eq_some _ _ _ _ h
  obtain ⟨hb, lit1, w1, ds, w2, lit2, rest, hsplit2, hmap1, hw1ne, hw1,
    hdsne, hds, hw2ne, hw2, hmap5, hval2⟩ :=
    (tryCWErrAt_eq_some_iff _ _ _).1 hval
  refine ⟨pre, lit1, w1, ds, w2, lit2, rest, ?_, hmap1, hw1ne, hw1,
    hdsne, hds, hw2ne, hw2, hmap5, ?_, hval2⟩
  · rw [hsplit, hsplit2]
    simp [List.append_assoc]
  · rwa [prevOf_none] at hb

/-- The counted-errors search succeeds exactly when the declarative
predicate holds for some value. -/
lemma dpCWErrSearch_isSome_iff (t : String) :
    (dpCWErrSearch t).isSome = true ↔ ∃ n, ContainsCWErrPhrase t n := by
  constructor
  · intro h
    obtain ⟨n, hn⟩ := Option.isSome_iff_exists.1 h
    exact ⟨n, dpCWErrSearch_eq_some_phrase t n hn⟩
  · rintro ⟨n, pre, lit1, w1, ds, w2, lit2, post, hsplit, hmap1, hw1ne,
      hw1, hdsne, hds, hw2ne, hw2, hmap5, hb, hval⟩
    unfold dpCWErrSearch
    rw [searchFrom_isSome_iff]
    refine ⟨pre, lit1 ++ w1 ++ ds ++ w2 ++ lit2 ++ post, ?_, ?_⟩
    · rw [hsplit]
      simp [List.append_assoc]
    · rw [Option.isSome_iff_exists]
      refine ⟨n, ?_⟩
      apply (tryCWErrAt_eq_some_iff _ _ _).2
      exact ⟨by rwa [prevOf_none], lit1, w1, ds, w2, lit2, post, rfl,
        hmap1, hw1ne, hw1, hdsne, hds, hw2ne, hw2, hmap5, hval⟩

/-- The uncounted-errors search agrees with the declarative
predicate. -/
lemma dpCWErr2Search_iff (t : String) :
    dpCWErr2Search t = true ↔ ContainsCWErr2Phrase t := by
  unfold dpCWErr2Search ContainsCWErr2Phrase
  rw [searchFrom_isSome_iff]
  constructor
  · rintro ⟨pre, post, hsplit, hsome⟩
    obtain ⟨hb, lit1, w1, lit2, rest, hsplit2, hmap1, hw1ne, hw1,
      hmap3⟩ := (tryCWErr2At_isSome_iff _ _).1 hsome
    refine ⟨pre, lit1, w1, lit2, rest, ?_, hmap1, hw1ne, hw1, hmap3, ?_⟩
    · rw [hsplit, hsplit2]
      simp [List.append_assoc]
    · rwa [prevOf_none] at hb
  · rintro ⟨pre, lit1, w1, lit2, post, hsplit, hmap1, hw1ne, hw1,
      hmap3, hb⟩
    refine ⟨pre, lit1 ++ w1 ++ lit2 ++ post, ?_, ?_⟩
    · rw [hsplit]
      simp [List.append_assoc]
    · apply (tryCWErr2At_isSome_iff _ _).2
      exact ⟨by rwa [prevOf_none], lit1, w1, lit2, post, rfl, hmap1,
        hw1ne, hw1, hmap3⟩

/-- C5: the completion-state extractor applies its four patterns in
strict priority order: a success phrase always yields (SUCCESS, 0), even
when the counted-errors phrase also matches; then the counted-errors
phrase yields COMPLETED_WITH_ERRORS with a count parsed from an actual
match; then the uncounted-errors phrase yields (COMPLETED_WITH_ERRORS,
none); then a bare completed phrase yields (COMPLETED, none); with no
match the result is (NONE, none). -/
theorem dpCompletionStateAndErrors_priority (t : String) :
    (ContainsSuccessPhrase t →
      dpCompletionStateAndErrors t = ("SUCCESS", some 0)) ∧
    (¬ContainsSuccessPhrase t → (∃ n, ContainsCWErrPhrase t n) →
      (dpCompletionStateAndErrors t).1 = "COMPLETED_WITH_ERRORS" ∧
      ∃ m, (dpCompletionStateAndErrors t).2 = some m ∧
        ContainsCWErrPhrase t m) ∧
    (¬ContainsSuccessPhrase t → (∀ n, ¬ContainsCWErrPhrase t n) →
      ContainsCWErr2Phrase t →
      dpCompletionStateAndErrors t = ("COMPLETED_WITH_ERRORS", none)) ∧
    (¬ContainsSuccessPhrase t → (∀ n, ¬ContainsCWErrPhrase t n) →
      ¬ContainsCWErr2Phrase t → ContainsCompletedPhrase t →
      dpCompletionStateAndErrors t = ("COMPLETED", none)) ∧
    (¬ContainsSuccessPhrase t → (∀ n, ¬ContainsCWErrPhrase t n) →
      ¬ContainsCWErr2Phrase t → ¬ContainsCompletedPhrase t →
      dpCompletionStateAndErrors t = ("NONE", none)) := by
  have hsf : ¬ContainsSuccessPhrase t → dpSuccessSearch t = false := by
    intro hns
    cases h : dpSuccessSearch t
    · rfl
    · exact absurd ((dpSuccessSearch_iff t).1 h) hns
  have hcf : (∀ n, ¬ContainsCWErrPhrase t n) → dpCWErrSearch t = none := by
    intro hnc
    cases h : dpCWErrSearch t with
    | none => rfl
    | some m => exact absurd (dpCWErrSearch_eq_some_phrase t m h) (hnc m)
  have hc2f : ¬ContainsCWErr2Phrase t → dpCWErr2Search t = false := by
    intro hn2
    cases h : dpCWErr2Search t
    · rfl
    · exact absurd ((dpCWErr2Search_iff t).1 h) hn2
  have hcpf : ¬ContainsCompletedPhrase t → dpCompletedSearch t = false := by
    intro hnp
    cases h : dpCompletedSearch t
    · rfl
    · exact absurd ((dpCompletedSearch_iff t).1 h) hnp
  refine ⟨?_, ?_, ?_, ?_, ?_⟩
  · intro hs
    have h1 : dpSuccessSearch t = true := (dpSuccessSearch_iff t).2 hs
    simp [dpCompletionStateAndErrors, h1]
  · intro hns hex
    have h1 := hsf hns
    have h2 : (dpCWErrSearch t).isSome = true :=
      (dpCWErrSearch_isSome_iff t).2 hex
    obtain ⟨m, hm⟩ := Option.isSome_iff_exists.1 h2
    constructor
    · simp [dpCompletionStateAndErrors, h1, hm]
    · exact ⟨m, by simp [dpCompletionStateAndErrors, h1, hm],
        dpCWErrSearch_eq_some_phrase t m hm⟩
  · intro hns hnc h2p
    have h3 : dpCWErr2Search t = true := (dpCWErr2Search_iff t).2 h2p
    simp [dpCompletionStateAndErrors, hsf hns, hcf hnc, h3]
  · intro hns hnc hn2 hcp
    have h4 : dpCompletedSearch t = true := (dpCompletedSearch_iff t).2 hcp
    simp [dpCompletionStateAndErrors, hsf hns, hcf hnc, hc2f hn2, h4]
  · intro hns hnc hn2 hnp
    simp [dpCompletionStateAndErrors, hsf hns, hcf hnc, hc2f hn2, hcpf hnp]

/-- Concrete check: a text containing both the success phrase and a
counted-errors phrase classifies as SUCCESS with count 0. -/
theorem dpCompletion_concrete_priority :
    dpCompletionStateAndErrors
      "Job successfully completed and completed with 3 errors" =
      ("SUCCESS", some 0) := by
  rfl

/-- Concrete check: a counted-errors phrase without the success phrase
classifies as COMPLETED_WITH_ERRORS with the parsed count. -/
theorem dpCompletion_concrete_errors :
    dpCompletionStateAndErrors
      "Job LEGACY_APP.MIG completed with 2 errors at 12:00" =
      ("COMPLETED_WITH_ERRORS", some 2) := by
  rfl

/-- Concrete check of the selector on the spec's example listing:
retries 0, 2, 2 with timestamps 10, 9, 11 select the third candidate
and cite retry-number precedence. -/
theorem pickBest_concrete :
    (pickBestImpdpLog
      [⟨"runs/d/03-migration/impdp_legacy.log", 10, 100⟩,
       ⟨"runs/d/03-migration/impdp_retry2_a.log", 9, 100⟩,
       ⟨"runs/d/03-migration/impdp_retry2_b.log", 11, 100⟩]
      "runs/d/").1 = some "runs/d/03-migration/impdp_retry2_b.log" ∧
    (pickBestImpdpLog
      [⟨"runs/d/03-migration/impdp_legacy.log", 10, 100⟩,
       ⟨"runs/d/03-migration/impdp_retry2_a.log", 9, 100⟩,
       ⟨"runs/d/03-migration/impdp_retry2_b.log", 11, 100⟩]
      "runs/d/").2.2.2 = "filename_retry_number_then_lastmodified" := by
  constructor <;> rfl

/-- Concrete check of the validation parser on a one-INVALID-row table
with a present row count: one invalid object, status WARN. -/
theorem parseValidation_concrete :
    (parseValidation
      (some ("OWNER       OBJECT_NAME   OBJECT_TYPE   STATUS\n" ++
        "----------  ------------  ------------  -------\n" ++
        "LEGACY_APP  BAD_VIEW      VIEW          INVALID\n"))
      (some "ORDERS_COUNT\n------------\n50000\n")).invalid_objects_count =
        some 1 ∧
    (parseValidation
      (some ("OWNER       OBJECT_NAME   OBJECT_TYPE   STATUS\n" ++
        "----------  ------------  ------------  -------\n" ++
        "LEGACY_APP  BAD_VIEW      VIEW          INVALID\n"))
      (some "ORDERS_COUNT\n------------\n50000\n")).status = "WARN" ∧
    (parseValidation
      (some ("OWNER       OBJECT_NAME   OBJECT_TYPE   STATUS\n" ++
        "----------  ------------  ------------  -------\n" ++
        "LEGACY_APP  BAD_VIEW      VIEW          INVALID\n"))
      (some "ORDERS_COUNT\n------------\n50000\n")).orders_count =
        some 50000 := by
  refine ⟨?_, ?_, ?_⟩ <;> rfl

/-- Concrete check of the risk scorer: fatal code with two attempts on
an otherwise clean run scores 60 (10 + 50). -/
theorem riskScore_concrete :
    (riskScore []
      (some ⟨"03-migration/impdp_retry2.log", true, none,
        [("ORA-39000", 1)], "SUCCESS", some 0⟩)
      2 none validationPassSample).1 = 60 := by
  rfl

end DetApp
